import Mathlib

/-!
Verification development for the Topic Clustering & Hierarchy Engine of the
`lbs-knowledge-graph` repository.

The definitions below shallowly embed the Python sources
`src/enrichment/topic_clusterer.py`, `src/enrichment/topic_hierarchy_builder.py`
and `src/enrichment/topic_analysis.py`.  Machine floats are embedded as exact
rationals (`ℚ`) where the code only performs field arithmetic and comparisons,
and as real numbers (`ℝ`) where the code takes square roots or logarithms
(cosine similarity, Shannon entropy).  Python dictionaries are embedded as
association lists in insertion order, Python sets as deduplicated lists, and
the mutable graph store as an explicit state value threaded through each
operation.  Recursive Python functions without a structural termination
argument are embedded with an explicit fuel parameter returning `Option`
(`none` = the recursion did not finish within the given fuel).
-/

namespace KG

/-- Modelled from the spec: graph-store node (`query(node_type) -> [node]`,
"id + attribute map").  The attribute map is not read by any verified
operation except through node identity, so only `id` and `node_type` are kept.
The store itself (`mgraph_compat.MGraph`) is not part of the provided
sources; its interface is taken from spec section 6. -/
structure MNode where
  id : String
  node_type : String
deriving DecidableEq, Repr

/-- Modelled from the spec: graph-store edge (`from_id`, `to_id`, attribute
map).  The attribute map is reduced to its `similarity` entry, the only
attribute the verified operations read or write. -/
structure MEdge where
  from_node : String
  to_node : String
  edge_type : String
  similarity : Option ℚ
deriving DecidableEq, Repr

/-- Modelled from the spec: the external graph store, an in-memory collection
of nodes and edges in insertion order. -/
structure MGraph where
  nodes : List MNode
  edges : List MEdge
deriving DecidableEq, Repr

/-- Modelled from the spec: node lookup by id (used by the builders to verify
that endpoints exist). -/
def MGraph.get_node (g : MGraph) (node_id : String) : Option MNode :=
  g.nodes.find? (fun n => n.id = node_id)

/-- Modelled from the spec: `get_edges(from?, to?, edge_type?) -> [edge]`,
filtering the edge list by whichever arguments are provided. -/
def MGraph.get_edges (g : MGraph) (from_id : Option String)
    (to_id : Option String) (ty : Option String) : List MEdge :=
  g.edges.filter (fun e =>
    (match from_id with | some f => e.from_node = f | none => true) &&
    (match to_id with | some t => e.to_node = t | none => true) &&
    (match ty with | some s => e.edge_type = s | none => true))

/-- Modelled from the spec: `add_edge(from, to, edge_type, data)` — "always
inserts, no upsert/merge semantics". -/
def MGraph.add_edge (g : MGraph) (from_id to_id ty : String)
    (sim : Option ℚ) : MGraph :=
  { g with edges := g.edges ++ [⟨from_id, to_id, ty, sim⟩] }

/-- Modelled from the spec: `query(node_type) -> [node]`. -/
def MGraph.query (g : MGraph) (ty : String) : List MNode :=
  g.nodes.filter (fun n => n.node_type = ty)

/-!  `TopicHierarchyBuilder.calculate_centrality`
(topic_hierarchy_builder.py lines 219-264).  The three edge counts are the
lengths returned by `get_edges`; the weighted score is exact rational
arithmetic standing for the float expressions in the source. -/

/-- Number of incoming `HAS_TOPIC` edges of a topic (the source binds this to
the misnamed local `outgoing_has_topic`; the query is `to_node_id=topic_id`). -/
def incoming_has_topic (g : MGraph) (topic_id : String) : ℕ :=
  (g.get_edges none (some topic_id) (some "HAS_TOPIC")).length

/-- Number of incoming `SUBTOPIC_OF` edges of a topic. -/
def incoming_subtopic (g : MGraph) (topic_id : String) : ℕ :=
  (g.get_edges none (some topic_id) (some "SUBTOPIC_OF")).length

/-- Number of outgoing `RELATED_TOPIC` edges of a topic. -/
def outgoing_related (g : MGraph) (topic_id : String) : ℕ :=
  (g.get_edges (some topic_id) none (some "RELATED_TOPIC")).length

/-- `TopicHierarchyBuilder.calculate_centrality`: weighted sum of the three
normalized, capped edge-count scores. -/
def calculate_centrality (g : MGraph) (topic_id : String) : ℚ :=
  let has_topic_score : ℚ := min ((incoming_has_topic g topic_id : ℚ) / 10) 1
  let subtopic_score : ℚ := min ((incoming_subtopic g topic_id : ℚ) / 5) 1
  let related_score : ℚ := min ((outgoing_related g topic_id : ℚ) / 10) 1
  (1/2) * has_topic_score + (3/10) * subtopic_score + (1/5) * related_score

/-!  `TopicHierarchyBuilder.create_subtopic_edge`
(topic_hierarchy_builder.py lines 56-98).  On the success path the source
evaluates the f-string
`f"... (sim={similarity:.3f if similarity else 'N/A'})"` inside
`logger.debug`.  The text after the colon is taken literally as the format
specification, and `.3f if similarity else ...` is not a valid format
specification for a float (nor for `None`), so the f-string itself raises
(`ValueError: Invalid format specifier`, or `TypeError` for `None`) — after
the edge has already been added.  The embedding returns the new store paired
with `some message` when the call raises and `none` when it returns
normally. -/
def create_subtopic_edge (g : MGraph) (child_id parent_id : String)
    (similarity : Option ℚ) : MGraph × Option String :=
  match g.get_node child_id with
  | none => (g, none)
  | some _ =>
    match g.get_node parent_id with
    | none => (g, none)
    | some _ =>
      (g.add_edge child_id parent_id "SUBTOPIC_OF" similarity,
        some "Invalid format specifier")

/-- `TopicHierarchyBuilder.create_related_topic_edge`
(topic_hierarchy_builder.py lines 100-142): no-op if either endpoint is
missing, otherwise adds the two directed `RELATED_TOPIC` edges carrying the
same similarity value.  (Its debug f-string `{similarity:.3f}` is a valid
format specification, so this function returns normally.) -/
def create_related_topic_edge (g : MGraph) (topic1_id topic2_id : String)
    (similarity : ℚ) : MGraph :=
  match g.get_node topic1_id, g.get_node topic2_id with
  | some _, some _ =>
    (g.add_edge topic1_id topic2_id "RELATED_TOPIC" (some similarity)).add_edge
      topic2_id topic1_id "RELATED_TOPIC" (some similarity)
  | _, _ => g

/-!  `TopicHierarchyBuilder.build_related_topics`
(topic_hierarchy_builder.py lines 176-217).  The similarity lookup
`topic_similarities : Dict[Tuple[str, str], float]` is embedded as a lookup
function; the processed-pair set as a list of normalized (sorted) pairs. -/

/-- The normalized pair key `tuple(sorted([a, b]))`. -/
def norm_pair (a b : String) : String × String :=
  if a ≤ b then (a, b) else (b, a)

/-- Similarity lookup for a pair: first `(t1, t2)`, then `(t2, t1)`. -/
def lookup_sim (sims : String × String → Option ℚ) (t1 t2 : String) :
    Option ℚ :=
  match sims (t1, t2) with
  | some s => some s
  | none => sims (t2, t1)

/-- Inner loop of `build_related_topics`: processes the pairs `(t1, t2)` for
`t2` in the tail, threading the graph, the processed-pair set and the count. -/
def build_related_inner (sims : String × String → Option ℚ) (θ : ℚ)
    (t1 : String) :
    List String → MGraph × List (String × String) × ℕ →
      MGraph × List (String × String) × ℕ
  | [], st => st
  | t2 :: rest, (g, processed, count) =>
    let pair := norm_pair t1 t2
    if pair ∈ processed then
      build_related_inner sims θ t1 rest (g, processed, count)
    else
      match lookup_sim sims t1 t2 with
      | none => build_related_inner sims θ t1 rest (g, processed, count)
      | some s =>
        if θ ≤ s then
          build_related_inner sims θ t1 rest
            (create_related_topic_edge g t1 t2 s, pair :: processed, count + 1)
        else
          build_related_inner sims θ t1 rest (g, processed, count)

/-- Outer loop of `build_related_topics` over `enumerate(topic_ids)`; for
index `i` the inner loop runs over `topic_ids[i+1:]`. -/
def build_related_outer (sims : String × String → Option ℚ) (θ : ℚ) :
    List String → MGraph × List (String × String) × ℕ →
      MGraph × List (String × String) × ℕ
  | [], st => st
  | t1 :: rest, st => build_related_outer sims θ rest
      (build_related_inner sims θ t1 rest st)

/-- `TopicHierarchyBuilder.build_related_topics`: returns the updated store
and the number of qualifying unordered pairs. -/
def build_related_topics (g : MGraph) (topic_ids : List String)
    (sims : String × String → Option ℚ) (θ : ℚ) : MGraph × ℕ :=
  let st := build_related_outer sims θ topic_ids (g, [], 0)
  (st.1, st.2.2)

/-!  `TopicHierarchyBuilder._get_topic_depth` / `get_topic_path`
(topic_hierarchy_builder.py lines 366-431).  Both are embedded with an
explicit fuel parameter (`none` = fuel exhausted); the Python functions carry
no termination argument of their own, they rely on the growth of the
per-path `visited` set. -/

/-- Every node id mentioned by some edge of the store.  The `visited` sets of
the traversals only ever grow inside this finite set, which bounds the
recursion depth. -/
def edge_endpoints (g : MGraph) : Finset String :=
  g.edges.foldr (fun e s => insert e.from_node (insert e.to_node s)) ∅

/-- Fuel that always suffices for the hierarchy traversals. -/
def graph_fuel (g : MGraph) : ℕ :=
  (edge_endpoints g).card + 1

/-- Effectful map over `Option` (the standard `mapM` at the `Option` monad,
restated with plain recursion equations). -/
def mapM_opt {β γ : Type} (f : β → Option γ) : List β → Option (List γ)
  | [] => some []
  | x :: xs =>
    match f x, mapM_opt f xs with
    | some y, some ys => some (y :: ys)
    | _, _ => none

/-- `TopicHierarchyBuilder._get_topic_depth` with fuel: depth `0` on a node
already on the current path (cycle) or on a node without parents, otherwise
`1 +` the maximum parent depth, each branch receiving its own copy of the
extended visited set. -/
def get_topic_depth_fuel (g : MGraph) :
    ℕ → List String → String → Option ℕ
  | 0, _, _ => none
  | fuel + 1, visited, topic_id =>
    if topic_id ∈ visited then
      some 0
    else
      let parent_edges := g.get_edges (some topic_id) none (some "SUBTOPIC_OF")
      if parent_edges.isEmpty then
        some 0
      else
        match mapM_opt
          (fun e => get_topic_depth_fuel g fuel (topic_id :: visited) e.to_node)
          parent_edges with
        | none => none
        | some ds => some (ds.foldl max 0 + 1)

/-- Totalized `_get_topic_depth` at the always-sufficient fuel. -/
def get_topic_depth (g : MGraph) (topic_id : String) : ℕ :=
  (get_topic_depth_fuel g (graph_fuel g) [] topic_id).getD 0

/-- `TopicHierarchyBuilder._calculate_max_depth`: maximum depth over all
Topic nodes. -/
def calculate_max_depth (g : MGraph) : ℕ :=
  (g.query "Topic").foldl (fun m n => max m (get_topic_depth g n.id)) 0

/-- `TopicHierarchyBuilder.get_topic_path` with fuel: follow the first
outgoing `SUBTOPIC_OF` edge until there is no parent or the parent was
already visited. -/
def get_topic_path_fuel (g : MGraph) :
    ℕ → List String → List String → String → Option (List String)
  | 0, _, _, _ => none
  | fuel + 1, path, visited, current =>
    match g.get_edges (some current) none (some "SUBTOPIC_OF") with
    | [] => some path
    | e :: _ =>
      let parent := e.to_node
      if parent ∈ visited then
        some path
      else
        get_topic_path_fuel g fuel (path ++ [parent]) (parent :: visited) parent

/-- Totalized `get_topic_path` at the always-sufficient fuel, starting from
`path = [topic_id]`, `visited = {topic_id}`. -/
def get_topic_path (g : MGraph) (topic_id : String) : List String :=
  (get_topic_path_fuel g (graph_fuel g) [topic_id] [topic_id] topic_id).getD
    [topic_id]

/-!  `TopicHierarchyBuilder.get_hierarchy_statistics`
(topic_hierarchy_builder.py lines 300-348). -/

/-- Parent edges of a topic (it occurs as child): outgoing `SUBTOPIC_OF`. -/
def parent_edges_of (g : MGraph) (topic_id : String) : List MEdge :=
  g.get_edges (some topic_id) none (some "SUBTOPIC_OF")

/-- Child edges of a topic (it occurs as parent): incoming `SUBTOPIC_OF`. -/
def child_edges_of (g : MGraph) (topic_id : String) : List MEdge :=
  g.get_edges none (some topic_id) (some "SUBTOPIC_OF")

/-- The statistics record returned by `get_hierarchy_statistics`.
`orphan_topics` is an integer because the Python subtraction can go
negative. -/
structure HierarchyStats where
  total_topics : ℕ
  root_topics : ℕ
  child_topics : ℕ
  orphan_topics : ℤ
  subtopic_edges : ℕ
  related_topic_edges : ℕ
  hierarchy_depth : ℕ
deriving DecidableEq, Repr

/-- `TopicHierarchyBuilder.get_hierarchy_statistics`: the Python sets
`root_topics` / `child_topics` are embedded as deduplicated id lists, and
`orphan_topics` is computed, exactly as in the source, by the subtraction
`num_topics - len(root_topics) - len(child_topics)`. -/
def get_hierarchy_statistics (g : MGraph) : HierarchyStats :=
  let topic_nodes := g.query "Topic"
  let num_topics := topic_nodes.length
  let root_ids :=
    ((topic_nodes.filter (fun n => !(child_edges_of g n.id).isEmpty)).map
      (fun n => n.id)).dedup
  let child_ids :=
    ((topic_nodes.filter (fun n => !(parent_edges_of g n.id).isEmpty)).map
      (fun n => n.id)).dedup
  let subtopic_edges := (topic_nodes.map
    (fun n => (parent_edges_of g n.id).length)).sum
  let related_edges := (topic_nodes.map
    (fun n => outgoing_related g n.id)).sum
  { total_topics := num_topics
    root_topics := root_ids.length
    child_topics := child_ids.length
    orphan_topics :=
      (num_topics : ℤ) - root_ids.length - child_ids.length
    subtopic_edges := subtopic_edges
    related_topic_edges := related_edges / 2
    hierarchy_depth := calculate_max_depth g }

/-- Written from the spec's words: `orphan_topics` "is defined directly as
topics with neither children nor a parent". -/
def orphan_topics_direct (g : MGraph) : ℕ :=
  (((g.query "Topic").filter (fun n =>
    (child_edges_of g n.id).isEmpty && (parent_edges_of g n.id).isEmpty)).map
      (fun n => n.id)).dedup.length

/-!  `TopicAnalysis.calculate_diversity_metrics`
(topic_analysis.py lines 256-323).  Entropy needs real logarithms, so the
metrics record mixes exact rationals (plain float arithmetic) and reals. -/

/-- Per-topic frequency distribution: incoming `HAS_TOPIC` edge counts in
Topic-node order. -/
def graph_topic_frequencies (g : MGraph) : List ℕ :=
  (g.query "Topic").map (fun t => incoming_has_topic g t.id)

/-- `np.median` of a list of naturals: sort ascending; mean of the two middle
elements for even length. -/
def median_nat (l : List ℕ) : ℚ :=
  let s := l.insertionSort (· ≤ ·)
  let n := s.length
  if n % 2 = 1 then (s.getD (n / 2) 0 : ℚ)
  else ((s.getD (n / 2 - 1) 0 : ℚ) + (s.getD (n / 2) 0 : ℚ)) / 2

/-- The record returned by `calculate_diversity_metrics`. -/
structure DiversityMetrics where
  total_pages : ℕ
  total_topics : ℕ
  topic_coverage : ℚ
  avg_topics_per_page : ℚ
  median_topics_per_page : ℚ
  max_topics_per_page : ℕ
  topic_entropy : ℝ
  normalized_entropy : ℝ

/-- Entropy computation of `calculate_diversity_metrics` (topic_analysis.py
lines 292-304): probabilities `freq/total` with the zero entries removed,
then `-Σ p·log2 p`; `0` when the total frequency is zero. -/
noncomputable def impl_entropy (freqs : List ℕ) : ℝ :=
  if 0 < freqs.sum then
    let probabilities :=
      (freqs.map (fun (f : ℕ) => (f : ℝ) / (freqs.sum : ℝ))).filter
        (fun p => 0 < p)
    Neg.neg ((probabilities.map (fun p => p * Real.logb 2 p)).sum)
  else 0

/-- Normalization of the entropy by `log2(topic_count)` when positive
(topic_analysis.py lines 300-304). -/
noncomputable def impl_normalized (freqs : List ℕ) (n_topics : ℕ) : ℝ :=
  if 0 < freqs.sum then
    (if 0 < Real.logb 2 (n_topics : ℝ) then
      impl_entropy freqs / Real.logb 2 (n_topics : ℝ)
    else 0)
  else 0

/-- `TopicAnalysis.calculate_diversity_metrics`: `none` models the empty
dictionary returned when there are no Page or no Topic nodes. -/
noncomputable def calculate_diversity_metrics (g : MGraph) :
    Option DiversityMetrics :=
  let page_nodes := g.query "Page"
  let topic_nodes := g.query "Topic"
  if page_nodes.isEmpty || topic_nodes.isEmpty then none
  else
    let topics_per_page := page_nodes.map
      (fun p => (g.get_edges (some p.id) none (some "HAS_TOPIC")).length)
    let pages_with_topics := (topics_per_page.filter (fun n => 0 < n)).length
    let topic_frequencies := graph_topic_frequencies g
    some
      { total_pages := page_nodes.length
        total_topics := topic_nodes.length
        topic_coverage := (pages_with_topics : ℚ) / (page_nodes.length : ℚ)
        avg_topics_per_page :=
          (topics_per_page.sum : ℚ) / (topics_per_page.length : ℚ)
        median_topics_per_page := median_nat topics_per_page
        max_topics_per_page := topics_per_page.foldl max 0
        topic_entropy := impl_entropy topic_frequencies
        normalized_entropy :=
          impl_normalized topic_frequencies topic_nodes.length }

/-- Written from the spec's words: base-2 Shannon entropy of a frequency
distribution, `-Σ p·log2 p` over the induced probabilities (terms with zero
probability contribute `0`). -/
noncomputable def shannon_entropy (freqs : List ℕ) : ℝ :=
  let T : ℝ := (freqs.sum : ℝ)
  Neg.neg ((freqs.map
    (fun (f : ℕ) => ((f : ℝ) / T) * Real.logb 2 ((f : ℝ) / T))).sum)

/-!  `TopicClusterer` (topic_clusterer.py).  The numeric type is a parameter
`α` (a linear ordered field): the clustering logic only performs field
arithmetic and comparisons, so it is stated generically and instantiated at
`ℚ` for executable witnesses and at `ℝ` where actual cosine similarities
(square roots) are involved.  The external algorithms the source delegates to
— `sklearn.metrics.pairwise.cosine_similarity` and the scipy
`linkage`/`fcluster` pipeline in `_hierarchical_clustering` — are third-party
library calls: cosine similarity is modelled from its documented formula and
the flat-label clustering step is a function parameter `hc`. -/

/-- The `Topic` dataclass of topic_clusterer.py. -/
structure Topic (α : Type) where
  id : String
  name : String
  frequency : ℕ
  embedding : Option (List α)
  category : Option String
  level : ℕ
deriving DecidableEq, Repr

instance {α : Type} : Inhabited (Topic α) :=
  ⟨⟨"", "", 0, none, none, 0⟩⟩

/-- The `TopicCluster` dataclass of topic_clusterer.py. -/
structure TopicCluster (α : Type) where
  cluster_id : ℕ
  topics : List (Topic α)
  centroid_topic : Topic α
  avg_similarity : α
  size : ℕ
deriving DecidableEq, Repr

variable {α : Type} [LinearOrderedField α]

/-- Dot product of two embedding vectors (over the zipped common prefix, as
`numpy` would over equal-length vectors). -/
def dot (a b : List α) : α :=
  ((a.zip b).map (fun p => p.1 * p.2)).sum

/-- Modelled from the spec: pairwise cosine similarity
(`sklearn.metrics.pairwise.cosine_similarity`, third-party):
`⟨a,b⟩ / (‖a‖·‖b‖)`. -/
noncomputable def cosine_sim (a b : List ℝ) : ℝ :=
  dot a b / (Real.sqrt (dot a a) * Real.sqrt (dot b b))

/-- `TopicClusterer._compute_similarity_matrix` as an index-pair function
over the embeddings of the given topic list. -/
noncomputable def compute_similarity_matrix (topics : List (Topic ℝ)) :
    ℕ → ℕ → ℝ := fun i j =>
  cosine_sim ((topics.getD i default).embedding.getD [])
    ((topics.getD j default).embedding.getD [])

/-- Indices (into the label vector) of the members of label group `ℓ`
(`np.where(cluster_labels == label)`). -/
def cluster_indices (labels : List ℕ) (ℓ : ℕ) : List ℕ :=
  (List.range labels.length).filter (fun i => labels.getD i 0 = ℓ)

/-- Index pairs of the strict upper triangle of an `m×m` matrix
(`np.triu_indices`, `k = 1`), row-major. -/
def upper_pairs (m : ℕ) : List (ℕ × ℕ) :=
  (List.range m).flatMap (fun a =>
    ((List.range m).filter (fun b => a < b)).map (fun b => (a, b)))

/-- `np.argmax`: index of the first occurrence of the maximum. -/
def argmax_aux : List α → ℕ → ℕ → α → ℕ
  | [], _, best, _ => best
  | x :: xs, i, best, bv =>
    if bv < x then argmax_aux xs (i + 1) i x
    else argmax_aux xs (i + 1) best bv

/-- `np.argmax` over a list (`0` on the empty list). -/
def argmax_idx : List α → ℕ
  | [] => 0
  | x :: xs => argmax_aux xs 1 0 x

/-- One step of the `for label in unique_labels` loop body of
`TopicClusterer._create_clusters`, given the recursive re-clustering call
`recurse` (the source's `self._create_clusters` at one less fuel) and the
clustering routine `hc` (the source's `self._hierarchical_clustering`).
`acc` is the `clusters` list built so far. -/
def create_clusters_go
    (recurse : List (Topic α) → List ℕ → (ℕ → ℕ → α) →
      Option (List (TopicCluster α)))
    (hc : List (Topic α) → (ℕ → ℕ → α) → List ℕ)
    (min_size max_size : ℕ) (topics : List (Topic α)) (labels : List ℕ)
    (sim : ℕ → ℕ → α) :
    List ℕ → List (TopicCluster α) → Option (List (TopicCluster α))
  | [], acc => some acc
  | ℓ :: rest, acc =>
    let idxs := cluster_indices labels ℓ
    let members := idxs.map (fun i => topics.getD i default)
    if members.length < min_size then
      create_clusters_go recurse hc min_size max_size topics labels sim rest acc
    else if max_size < members.length then
      let sub_sim := fun a b => sim (idxs.getD a 0) (idxs.getD b 0)
      let sub_labels := hc members sub_sim
      match recurse members sub_labels sub_sim with
      | none => none
      | some subs =>
        create_clusters_go recurse hc min_size max_size topics labels sim rest
          (acc ++ subs)
    else
      let m := members.length
      let sub_sim := fun a b => sim (idxs.getD a 0) (idxs.getD b 0)
      let pairs := upper_pairs m
      let avg := (pairs.map (fun p => sub_sim p.1 p.2)).sum / (pairs.length : α)
      let mean_similarities := (List.range m).map
        (fun a => ((List.range m).map (fun b => sub_sim a b)).sum / (m : α))
      let centroid := members.getD (argmax_idx mean_similarities) default
      let cluster : TopicCluster α :=
        { cluster_id := acc.length + 1
          topics := members
          centroid_topic := centroid
          avg_similarity := avg
          size := members.length }
      create_clusters_go recurse hc min_size max_size topics labels sim rest
        (acc ++ [cluster])

/-- `TopicClusterer._create_clusters` with fuel bounding the recursive
re-clustering depth (the source has no such bound; `none` = the recursion
did not finish).  Python's `set(cluster_labels)` iteration order is
unspecified; it is embedded as first-occurrence deduplication, and every
property proved about the result is independent of that order. -/
def create_clusters_fuel (hc : List (Topic α) → (ℕ → ℕ → α) → List ℕ)
    (min_size max_size : ℕ) :
    ℕ → List (Topic α) → List ℕ → (ℕ → ℕ → α) →
      Option (List (TopicCluster α))
  | 0, _, _, _ => none
  | fuel + 1, topics, labels, sim =>
    create_clusters_go (create_clusters_fuel hc min_size max_size fuel) hc
      min_size max_size topics labels sim labels.dedup []

/-- `TopicClusterer.cluster_topics` with the similarity-matrix construction
(`simFn`, cosine similarity in the source) and the flat clustering
(`hc`, scipy in the source) as parameters. -/
def cluster_topics_fuel (simFn : List (Topic α) → ℕ → ℕ → α)
    (hc : List (Topic α) → (ℕ → ℕ → α) → List ℕ)
    (min_size max_size : ℕ) (fuel : ℕ) (topics : List (Topic α)) :
    Option (List (TopicCluster α)) :=
  if topics.length < 2 then some []
  else
    let valid := topics.filter (fun t => t.embedding.isSome)
    if valid.length < 2 then some []
    else
      let sim := simFn valid
      let labels := hc valid sim
      create_clusters_fuel hc min_size max_size fuel valid labels sim

/-!  `TopicClusterer.build_hierarchy` (topic_clusterer.py lines 225-294). -/

/-- The result of `build_hierarchy`: the returned parent→children dictionary
as an association list in insertion order, together with the final values of
the `level` fields that the source mutates in place on the topic objects. -/
structure HierarchyResult where
  hierarchy : List (String × List String)
  levels : List (String × ℕ)
deriving DecidableEq, Repr

/-- The `topic_index` dictionary `{t.id: i}`: the index of the last
occurrence of an id (later dict insertions overwrite earlier ones). -/
def topic_index (topics : List (Topic α)) (id : String) : ℕ :=
  match (topics.enum.filter (fun p => p.2.id = id)).getLast? with
  | some p => p.1
  | none => 0

/-- `hierarchy[best_parent.id].append(topic.id)`: append the child to the
first entry with the given key. -/
def append_child : List (String × List String) → String → String →
    List (String × List String)
  | [], _, _ => []
  | (k, cs) :: rest, parent, child =>
    if k = parent then (k, cs ++ [child]) :: rest
    else (k, cs) :: append_child rest parent child

/-- The `for root_topic in root_topics` loop of `build_hierarchy`: running
maximum (initially `-1`) and best parent (initially `None`), updated when
`sim > max_sim and sim >= similarity_threshold`. -/
def find_best_parent (θ : α) (sims : Topic α → α) (roots : List (Topic α)) :
    α × Option (Topic α) :=
  roots.foldl
    (fun st r =>
      let s := sims r
      if st.1 < s ∧ θ ≤ s then (s, some r) else st)
    (-1, none)

/-- Body of `build_hierarchy` after the similarity matrix has been obtained
(`simM` is the matrix indexed by positions in the original `topics` list). -/
def build_hierarchy_aux (θ : α) (topics : List (Topic α))
    (simM : ℕ → ℕ → α) : HierarchyResult :=
  let sorted_topics := topics.insertionSort (fun a b => b.frequency ≤ a.frequency)
  let root_count := max 1 (sorted_topics.length / 5)
  let root_topics := sorted_topics.take root_count
  if topics.length < 2 then { hierarchy := [], levels := [] }
  else
    let init : HierarchyResult :=
      { hierarchy := root_topics.map (fun r => (r.id, []))
        levels := root_topics.map (fun r => (r.id, 0)) }
    (sorted_topics.drop root_count).foldl
      (fun st t =>
        let ti := topic_index topics t.id
        let best := find_best_parent θ
          (fun r => simM ti (topic_index topics r.id)) root_topics
        match best.2 with
        | some r =>
          { hierarchy := append_child st.hierarchy r.id t.id
            levels := st.levels ++ [(t.id, 1)] }
        | none =>
          { hierarchy := st.hierarchy ++ [(t.id, [])]
            levels := st.levels ++ [(t.id, 0)] })
      init

/-- `TopicClusterer.build_hierarchy`: the similarity matrix is the cosine
matrix over the given topics' embeddings. -/
noncomputable def build_hierarchy (θ : ℝ) (topics : List (Topic ℝ)) :
    HierarchyResult :=
  build_hierarchy_aux θ topics (compute_similarity_matrix topics)

/-- Written from the spec's words: "pick the root with maximum similarity; if
that maximum is ≥ similarity_threshold assign as child of that root,
otherwise promote; ties in the argmax are broken by the root's position in
the frequency-sorted root list (first wins)". -/
def spec_best_root (θ : α) (sims : Topic α → α) (roots : List (Topic α)) :
    Option (Topic α) :=
  match (roots.map sims).max? with
  | none => none
  | some m => if θ ≤ m then roots.find? (fun r => sims r = m) else none

/-- Written from the spec's words: `build_hierarchy` described
declaratively — the top `max(1, count / 5)` topics of the
frequency-descending stable sort become roots with the children assigned to
their best root, the remaining topics are promoted to childless roots, and
levels record root (0) / child (1) status. -/
def build_hierarchy_spec_aux (θ : α) (topics : List (Topic α))
    (simM : ℕ → ℕ → α) : HierarchyResult :=
  if topics.length < 2 then { hierarchy := [], levels := [] }
  else
    let sorted_topics :=
      topics.insertionSort (fun a b => b.frequency ≤ a.frequency)
    let root_count := max 1 (sorted_topics.length / 5)
    let roots := sorted_topics.take root_count
    let rest := sorted_topics.drop root_count
    let bp := fun t => spec_best_root θ
      (fun r => simM (topic_index topics t.id) (topic_index topics r.id)) roots
    { hierarchy :=
        roots.map (fun r =>
          (r.id, ((rest.filter (fun t => bp t = some r)).map (fun t => t.id))))
        ++ (rest.filter (fun t => bp t = none)).map (fun t => (t.id, []))
      levels :=
        roots.map (fun r => (r.id, 0))
        ++ rest.map (fun t => (t.id, if bp t = none then 0 else 1)) }

/-- The number of Topic nodes that are simultaneously a root (≥1 incoming
`SUBTOPIC_OF` edge) and a child (≥1 outgoing `SUBTOPIC_OF` edge). -/
def both_root_and_child_count (g : MGraph) : ℕ :=
  (((g.query "Topic").filter (fun n =>
    !(child_edges_of g n.id).isEmpty && !(parent_edges_of g n.id).isEmpty)).map
      (fun n => n.id)).dedup.length

/-- Written from the spec's words: the unordered pairs of the id list in
iteration order with their looked-up similarity, keeping those at or above
the related threshold. -/
def ordered_pairs : List String → List (String × String)
  | [] => []
  | x :: rest => rest.map (fun y => (x, y)) ++ ordered_pairs rest

/-- Written from the spec's words: the qualifying unordered pairs of
`build_related_topics` — similarity known in some direction and at least the
threshold. -/
def related_pairs_spec (sims : String × String → Option ℚ) (θ : ℚ)
    (ids : List String) : List (String × String × ℚ) :=
  (ordered_pairs ids).filterMap (fun p =>
    match lookup_sim sims p.1 p.2 with
    | none => none
    | some s => if θ ≤ s then some (p.1, p.2, s) else none)

/-- The two directed edges materializing one related pair. -/
def related_edge_pair (q : String × String × ℚ) : List MEdge :=
  [⟨q.1, q.2.1, "RELATED_TOPIC", some q.2.2⟩,
   ⟨q.2.1, q.1, "RELATED_TOPIC", some q.2.2⟩]

/-- The qualifying pairs contributed by one fixed first id against a tail of
second ids. -/
def inner_qual (sims : String × String → Option ℚ) (θ : ℚ) (t1 : String)
    (rest : List String) : List (String × String × ℚ) :=
  rest.filterMap (fun y =>
    match lookup_sim sims t1 y with
    | none => none
    | some s => if θ ≤ s then some (t1, y, s) else none)

/-- Written from the spec's words: `build_hierarchy` over the cosine
similarity matrix of the given topics. -/
noncomputable def build_hierarchy_spec (θ : ℝ) (topics : List (Topic ℝ)) :
    HierarchyResult :=
  build_hierarchy_spec_aux θ topics (compute_similarity_matrix topics)

/-- The loop body of `build_hierarchy` (one remaining topic processed
against the fixed root list); named so the fold can be reasoned about. -/
def hier_step (θ : α) (simM : ℕ → ℕ → α) (topics roots : List (Topic α))
    (st : HierarchyResult) (t : Topic α) : HierarchyResult :=
  match (find_best_parent θ
      (fun r => simM (topic_index topics t.id) (topic_index topics r.id))
      roots).2 with
  | some r =>
    { hierarchy := append_child st.hierarchy r.id t.id
      levels := st.levels ++ [(t.id, 1)] }
  | none =>
    { hierarchy := st.hierarchy ++ [(t.id, [])]
      levels := st.levels ++ [(t.id, 0)] }

/-- The parent chosen by the source's root loop for one topic. -/
def best_parent_impl (θ : α) (simM : ℕ → ℕ → α)
    (topics roots : List (Topic α)) (t : Topic α) : Option (Topic α) :=
  (find_best_parent θ
    (fun r => simM (topic_index topics t.id) (topic_index topics r.id))
    roots).2

/-- Closed form of the hierarchy dict built by the assignment fold of
`build_hierarchy`: each root keyed to the ids of the remaining topics whose
chosen parent it is, followed by the promoted topics with empty child
lists. -/
def cf_hierarchy (bp : Topic α → Option (Topic α)) (roots rest : List (Topic α)) :
    List (String × List String) :=
  roots.map (fun r => (r.id,
    ((rest.filter (fun t => bp t = some r)).map (fun t => t.id))))
  ++ (rest.filter (fun t => bp t = none)).map (fun t => (t.id, ([] : List String)))

/-- Closed form of the levels dict built by the assignment fold of
`build_hierarchy`: roots at level 0, remaining topics at level 1 when a
parent was chosen and level 0 when promoted. -/
def cf_levels (bp : Topic α → Option (Topic α)) (roots rest : List (Topic α)) :
    List (String × ℕ) :=
  roots.map (fun r => (r.id, 0))
  ++ rest.map (fun t => (t.id, if bp t = none then 0 else 1))

/-!  Concrete instances used by the theorems below. -/

/-- First topic of the spec's worked example. -/
noncomputable def c1_t1 : Topic ℝ := ⟨"t1", "T1", 10, some [1, 0], none, 0⟩

/-- Second topic of the spec's worked example (`0.98 = 49/50`,
`0.02 = 1/50`). -/
noncomputable def c1_t2 : Topic ℝ :=
  ⟨"t2", "T2", 8, some [49/50, 1/50], none, 0⟩

/-- Third topic of the spec's worked example. -/
noncomputable def c1_t3 : Topic ℝ := ⟨"t3", "T3", 5, some [0, 1], none, 0⟩

/-- The three topics of the spec's worked example. -/
noncomputable def c1_topics : List (Topic ℝ) := [c1_t1, c1_t2, c1_t3]

/-- A single topic with an embedding. -/
noncomputable def solo_topic : Topic ℝ := ⟨"s1", "S1", 3, some [1, 0], none, 0⟩

/-- A topic with 12 incoming `HAS_TOPIC` edges, 6 incoming `SUBTOPIC_OF`
edges and 15 outgoing `RELATED_TOPIC` edges. -/
def centrality_graph : MGraph :=
  ⟨[], List.replicate 12 ⟨"p", "t", "HAS_TOPIC", none⟩
    ++ List.replicate 6 ⟨"c", "t", "SUBTOPIC_OF", none⟩
    ++ List.replicate 15 ⟨"t", "r", "RELATED_TOPIC", none⟩⟩

/-- Chain graph `a → b → c` of `SUBTOPIC_OF` edges: `b` is simultaneously a
root (child `a`) and a child (parent `c`). -/
def chain_graph : MGraph :=
  ⟨[⟨"a", "Topic"⟩, ⟨"b", "Topic"⟩, ⟨"c", "Topic"⟩],
   [⟨"a", "b", "SUBTOPIC_OF", none⟩, ⟨"b", "c", "SUBTOPIC_OF", none⟩]⟩

/-- Cyclic graph `a → b → c → a` of `SUBTOPIC_OF` edges. -/
def cycle_graph : MGraph :=
  ⟨[⟨"a", "Topic"⟩, ⟨"b", "Topic"⟩, ⟨"c", "Topic"⟩],
   [⟨"a", "b", "SUBTOPIC_OF", none⟩, ⟨"b", "c", "SUBTOPIC_OF", none⟩,
    ⟨"c", "a", "SUBTOPIC_OF", none⟩]⟩

/-- Two-node graph with both endpoints of a subtopic edge present. -/
def two_topic_graph : MGraph :=
  ⟨[⟨"a", "Topic"⟩, ⟨"b", "Topic"⟩], []⟩

/-- Ten page ids. -/
def page_ids : List String :=
  ["p1", "p2", "p3", "p4", "p5", "p6", "p7", "p8", "p9", "p10"]

/-- 4 topics, 10 pages, every page linked to all 4 topics: each topic has
frequency 10. -/
def diversity_graph : MGraph :=
  ⟨[⟨"t1", "Topic"⟩, ⟨"t2", "Topic"⟩, ⟨"t3", "Topic"⟩, ⟨"t4", "Topic"⟩]
    ++ page_ids.map (fun p => ⟨p, "Page"⟩),
   page_ids.flatMap (fun p =>
     [⟨p, "t1", "HAS_TOPIC", none⟩, ⟨p, "t2", "HAS_TOPIC", none⟩,
      ⟨p, "t3", "HAS_TOPIC", none⟩, ⟨p, "t4", "HAS_TOPIC", none⟩])⟩

/-- Three-topic graph for the related-topics example. -/
def three_topic_graph : MGraph :=
  ⟨[⟨"t1", "Topic"⟩, ⟨"t2", "Topic"⟩, ⟨"t3", "Topic"⟩], []⟩

/-- A clustering routine that reports every topic in one label group — the
behaviour of the scipy average-linkage pipeline on an all-equal similarity
matrix whose uniform distance lies below the threshold cut. -/
def hc_const {α : Type} : List (Topic α) → (ℕ → ℕ → α) → List ℕ :=
  fun ts _ => List.replicate ts.length 1

/-- 21 identical topics with embeddings: one more than the default
`max_cluster_size` of 20. -/
def patho_topics : List (Topic ℚ) :=
  List.replicate 21 ⟨"t", "t", 1, some [1], none, 0⟩

/-- The all-equal similarity matrix of the pathological input. -/
def uniform_sim : ℕ → ℕ → ℚ := fun _ _ => 9/10

/-- Similarity-matrix builder returning the uniform matrix. -/
def uniform_simFn : List (Topic ℚ) → ℕ → ℕ → ℚ := fun _ => uniform_sim

/-- Two distinct topics with embeddings, for a successful clustering run. -/
def pair_topics : List (Topic ℚ) :=
  [⟨"a", "a", 1, some [1], none, 0⟩, ⟨"b", "b", 1, some [1], none, 0⟩]

/-- The zero similarity matrix builder. -/
def zero_simFn : List (Topic ℚ) → ℕ → ℕ → ℚ := fun _ => fun _ _ => 0

/-- The similarity lookup of the spec's three-topic example. -/
def example_sims : String × String → Option ℚ := fun p =>
  if p = ("t1", "t2") then some (9996/10000)
  else if p = ("t1", "t3") then some 0
  else if p = ("t2", "t3") then some (2/100)
  else none

/-!  # Theorems -/

section Theorems

/-- C6 helper: each capped score lies in `[0, 1]`. -/
lemma min_div_mem_unit (n : ℕ) (d : ℚ) (hd : 0 < d) :
    0 ≤ min ((n : ℚ) / d) 1 ∧ min ((n : ℚ) / d) 1 ≤ 1 :=
  ⟨le_min (by positivity) zero_le_one, min_le_right _ _⟩

/-- C6.  `calculate_centrality` is the weighted sum
`0.5·min(in_HAS_TOPIC/10, 1) + 0.3·min(in_SUBTOPIC_OF/5, 1) +
0.2·min(out_RELATED_TOPIC/10, 1)`; it always lies in `[0, 1]`; and a topic
with 12 incoming `HAS_TOPIC`, 6 incoming `SUBTOPIC_OF` and 15 outgoing
`RELATED_TOPIC` edges scores exactly `1`. -/
theorem calculate_centrality_spec :
    (∀ (g : MGraph) (t : String),
      calculate_centrality g t =
        (1/2) * min ((incoming_has_topic g t : ℚ) / 10) 1
        + (3/10) * min ((incoming_subtopic g t : ℚ) / 5) 1
        + (1/5) * min ((outgoing_related g t : ℚ) / 10) 1)
    ∧ (∀ (g : MGraph) (t : String),
        0 ≤ calculate_centrality g t ∧ calculate_centrality g t ≤ 1)
    ∧ calculate_centrality centrality_graph "t" = 1 := by
  refine ⟨fun g t => rfl, fun g t => ?_, ?_⟩
  · obtain ⟨h1, h2⟩ := min_div_mem_unit (incoming_has_topic g t) 10 (by norm_num)
    obtain ⟨h3, h4⟩ := min_div_mem_unit (incoming_subtopic g t) 5 (by norm_num)
    obtain ⟨h5, h6⟩ := min_div_mem_unit (outgoing_related g t) 10 (by norm_num)
    unfold calculate_centrality
    constructor <;> nlinarith
  · have h1 : incoming_has_topic centrality_graph "t" = 12 := by decide
    have h2 : incoming_subtopic centrality_graph "t" = 6 := by decide
    have h3 : outgoing_related centrality_graph "t" = 15 := by decide
    unfold calculate_centrality
    rw [h1, h2, h3]
    norm_num [min_def]

/-- C3.  `create_subtopic_edge` is a silent no-op when either endpoint is
missing, but on the success path it adds the edge and then raises from the
invalid f-string format specifier in its debug log line: it does not return
normally. -/
theorem create_subtopic_edge_behaviour :
    (∀ (g : MGraph) (c p : String) (s : Option ℚ),
      (g.get_node c).isSome → (g.get_node p).isSome →
        create_subtopic_edge g c p s =
          (g.add_edge c p "SUBTOPIC_OF" s, some "Invalid format specifier"))
    ∧ (∀ (g : MGraph) (c p : String) (s : Option ℚ),
        g.get_node c = none ∨ g.get_node p = none →
          create_subtopic_edge g c p s = (g, none)) := by
  constructor
  · intro g c p s hc hp
    obtain ⟨nc, hnc⟩ := Option.isSome_iff_exists.mp hc
    obtain ⟨np, hnp⟩ := Option.isSome_iff_exists.mp hp
    unfold create_subtopic_edge
    rw [hnc, hnp]
  · intro g c p s h
    unfold create_subtopic_edge
    rcases h with h | h
    · rw [h]
    · cases hc : g.get_node c with
      | none => rfl
      | some nc => rw [h]

/-- C3 witness: with both endpoints present the call adds the edge and
raises. -/
theorem create_subtopic_edge_behaviour_witness :
    ((two_topic_graph.get_node "a").isSome ∧
      (two_topic_graph.get_node "b").isSome) ∧
    create_subtopic_edge two_topic_graph "a" "b" (some (9/10)) =
      (two_topic_graph.add_edge "a" "b" "SUBTOPIC_OF" (some (9/10)),
        some "Invalid format specifier") :=
  ⟨⟨by decide, by decide⟩,
    create_subtopic_edge_behaviour.1 two_topic_graph "a" "b" (some (9/10))
      (by decide) (by decide)⟩

/-- C4 counting core: subtracting the two filter counts from the total
equals the neither-count minus the both-count. -/
lemma length_sub_filter_filter (l : List MNode) (P Q : MNode → Bool) :
    (l.length : ℤ) - (l.filter P).length - (l.filter Q).length
      = ((l.filter (fun x => !(P x) && !(Q x))).length : ℤ)
        - ((l.filter (fun x => P x && Q x)).length : ℤ) := by
  induction l with
  | nil => simp
  | cons x xs ih =>
    cases hP : P x <;> cases hQ : Q x <;>
      simp only [List.filter_cons, hP, hQ, Bool.not_true, Bool.not_false,
        Bool.true_and, Bool.false_and, Bool.and_true, Bool.and_false,
        List.length_cons, if_true, if_false] <;>
      push_cast <;> omega

/-- Map of a filtered list is deduplication-free when the full map has no
duplicates. -/
lemma dedup_map_filter_eq {l : List MNode} (f : MNode → String)
    (P : MNode → Bool) (h : (l.map f).Nodup) :
    ((l.filter P).map f).dedup = (l.filter P).map f :=
  List.dedup_eq_self.mpr (h.sublist (List.Sublist.map f (List.filter_sublist l)))

/-- C4 (amended).  `orphan_topics` is the subtraction
`total − |roots| − |children|`; on stores with distinct Topic-node ids this
equals the direct count of topics with neither children nor a parent *minus*
the number of topics that are both a root and a child, so the two agree
exactly when no topic plays both roles. -/
theorem orphan_topics_is_subtraction (g : MGraph)
    (h : ((g.query "Topic").map (fun n => n.id)).Nodup) :
    (get_hierarchy_statistics g).orphan_topics =
      (orphan_topics_direct g : ℤ) - (both_root_and_child_count g : ℤ) := by
  unfold get_hierarchy_statistics orphan_topics_direct both_root_and_child_count
  simp only [dedup_map_filter_eq _ _ h, List.length_map]
  have := length_sub_filter_filter (g.query "Topic")
    (fun n => !(child_edges_of g n.id).isEmpty)
    (fun n => !(parent_edges_of g n.id).isEmpty)
  simp only [Bool.not_not] at this
  exact this

/-- C4 witness: on the chain graph `a → b → c` the subtraction differs from
the direct count (−1 versus 0 orphans). -/
theorem orphan_topics_is_subtraction_witness :
    ((chain_graph.query "Topic").map (fun n => n.id)).Nodup ∧
    (get_hierarchy_statistics chain_graph).orphan_topics =
      (orphan_topics_direct chain_graph : ℤ)
        - (both_root_and_child_count chain_graph : ℤ) :=
  ⟨by decide, orphan_topics_is_subtraction chain_graph (by decide)⟩

/-- C4 counterexample: on the chain graph `a → b → c` (`b` both root and
child) the returned `orphan_topics` is `−1` while the number of topics with
neither children nor a parent is `0`. -/
theorem orphan_topics_counterexample :
    (get_hierarchy_statistics chain_graph).orphan_topics = -1 ∧
    orphan_topics_direct chain_graph = 0 ∧
    (get_hierarchy_statistics chain_graph).orphan_topics ≠
      (orphan_topics_direct chain_graph : ℤ) :=
  ⟨by decide, by decide, by decide⟩

/-- C7 helper: `mapM_opt` succeeds when every element does. -/
lemma mapM_opt_isSome {β γ : Type} {l : List β} {f : β → Option γ}
    (h : ∀ x ∈ l, (f x).isSome) : (mapM_opt f l).isSome := by
  induction l with
  | nil => simp [mapM_opt]
  | cons x xs ih =>
    obtain ⟨y, hy⟩ := Option.isSome_iff_exists.mp (h x (List.mem_cons_self x xs))
    obtain ⟨ys, hys⟩ := Option.isSome_iff_exists.mp
      (ih (fun z hz => h z (List.mem_cons_of_mem x hz)))
    simp [mapM_opt, hy, hys]

/-- C7 helper: endpoints of a listed edge belong to the endpoint fold. -/
lemma mem_endpoints_foldr {edges : List MEdge} {e : MEdge} (he : e ∈ edges) :
    e.from_node ∈ edges.foldr
        (fun e s => insert e.from_node (insert e.to_node s))
        (∅ : Finset String) ∧
      e.to_node ∈ edges.foldr
        (fun e s => insert e.from_node (insert e.to_node s))
        (∅ : Finset String) := by
  induction edges with
  | nil => cases he
  | cons x xs ih =>
    rcases List.mem_cons.mp he with rfl | hmem
    · simp
    · obtain ⟨h1, h2⟩ := ih hmem
      simp only [List.foldr_cons, Finset.mem_insert]
      exact ⟨Or.inr (Or.inr h1), Or.inr (Or.inr h2)⟩

/-- C7 helper: endpoints of a stored edge belong to `edge_endpoints`. -/
lemma mem_edge_endpoints {g : MGraph} {e : MEdge} (he : e ∈ g.edges) :
    e.from_node ∈ edge_endpoints g ∧ e.to_node ∈ edge_endpoints g :=
  mem_endpoints_foldr he

/-- C7 helper: adding a reachable, unvisited node to the visited set
strictly shrinks the unvisited endpoint set. -/
lemma filter_visited_cons_card_lt {g : MGraph} {visited : List String}
    {t : String} (hmem : t ∈ edge_endpoints g) (hnv : t ∉ visited) :
    ((edge_endpoints g).filter (fun x => x ∉ t :: visited)).card <
      ((edge_endpoints g).filter (fun x => x ∉ visited)).card := by
  have hset : (edge_endpoints g).filter (fun x => x ∉ t :: visited) =
      ((edge_endpoints g).filter (fun x => x ∉ visited)).erase t := by
    ext x
    simp only [Finset.mem_filter, Finset.mem_erase, List.mem_cons]
    tauto
  rw [hset]
  exact Finset.card_erase_lt_of_mem (Finset.mem_filter.mpr ⟨hmem, hnv⟩)

/-- C7 helper: an edge matched by the `from`-filter is stored and starts at
the filtered node. -/
lemma mem_of_mem_get_edges {g : MGraph} {e : MEdge} {f : String}
    {toN : Option String} {ty : Option String}
    (he : e ∈ g.get_edges (some f) toN ty) : e ∈ g.edges ∧ e.from_node = f := by
  unfold MGraph.get_edges at he
  obtain ⟨h1, h2⟩ := List.mem_filter.mp he
  simp only [Bool.and_eq_true, decide_eq_true_eq] at h2
  exact ⟨h1, h2.1.1⟩

/-- C7 key lemma: the depth recursion succeeds whenever the fuel exceeds the
number of unvisited edge endpoints. -/
lemma get_topic_depth_fuel_isSome (g : MGraph) :
    ∀ (fuel : ℕ) (visited : List String) (t : String),
      ((edge_endpoints g).filter (fun x => x ∉ visited)).card < fuel →
        (get_topic_depth_fuel g fuel visited t).isSome := by
  intro fuel
  induction fuel with
  | zero => intro visited t h; exact absurd h (Nat.not_lt_zero _)
  | succ fuel ih =>
    intro visited t h
    simp only [get_topic_depth_fuel]
    by_cases hv : t ∈ visited
    · rw [if_pos hv]; rfl
    · rw [if_neg hv]
      by_cases hpe : (g.get_edges (some t) none (some "SUBTOPIC_OF")).isEmpty
      · rw [if_pos hpe]; rfl
      · rw [if_neg hpe]
        have hne : g.get_edges (some t) none (some "SUBTOPIC_OF") ≠ [] :=
          fun hnil => hpe (List.isEmpty_iff.mpr hnil)
        have hmem : t ∈ edge_endpoints g := by
          obtain ⟨e, he⟩ := List.exists_mem_of_ne_nil _ hne
          obtain ⟨h1, h2⟩ := mem_of_mem_get_edges he
          exact h2 ▸ (mem_edge_endpoints h1).1
        have hcard := filter_visited_cons_card_lt hmem hv
        have hrec : ∀ e ∈ g.get_edges (some t) none (some "SUBTOPIC_OF"),
            (get_topic_depth_fuel g fuel (t :: visited) e.to_node).isSome := by
          intro e _
          exact ih (t :: visited) e.to_node (by omega)
        obtain ⟨ds, hds⟩ := Option.isSome_iff_exists.mp (mapM_opt_isSome hrec)
        rw [hds]
        rfl

/-- C7 key lemma: the path loop succeeds whenever the fuel exceeds the
number of unvisited edge endpoints. -/
lemma get_topic_path_fuel_isSome (g : MGraph) :
    ∀ (fuel : ℕ) (path visited : List String) (current : String),
      ((edge_endpoints g).filter (fun x => x ∉ visited)).card < fuel →
        (get_topic_path_fuel g fuel path visited current).isSome := by
  intro fuel
  induction fuel with
  | zero => intro path visited current h; exact absurd h (Nat.not_lt_zero _)
  | succ fuel ih =>
    intro path visited current h
    simp only [get_topic_path_fuel]
    cases hpe : g.get_edges (some current) none (some "SUBTOPIC_OF") with
    | nil => rfl
    | cons e rest =>
      dsimp only
      by_cases hv : e.to_node ∈ visited
      · rw [if_pos hv]; rfl
      · rw [if_neg hv]
        have hmem : e.to_node ∈ edge_endpoints g := by
          have he : e ∈ g.get_edges (some current) none (some "SUBTOPIC_OF") := by
            rw [hpe]; exact List.mem_cons_self e rest
          exact (mem_edge_endpoints (mem_of_mem_get_edges he).1).2
        have hcard := filter_visited_cons_card_lt hmem hv
        exact ih _ (e.to_node :: visited) e.to_node (by omega)

/-- C7.  Depth and path computations always terminate: a node already on the
current path contributes depth 0, the fueled traversals succeed at
`graph_fuel`, and on the `SUBTOPIC_OF` cycle `a → b → c → a` the depth of
`a` is the finite value 3 and its path is `[a, b, c]` (stopping when the
next parent `a` is already visited). -/
theorem hierarchy_traversals_terminate :
    (∀ (g : MGraph) (visited : List String) (t : String) (fuel : ℕ),
      t ∈ visited → get_topic_depth_fuel g (fuel + 1) visited t = some 0)
    ∧ (∀ (g : MGraph) (t : String),
        (get_topic_depth_fuel g (graph_fuel g) [] t).isSome)
    ∧ (∀ (g : MGraph) (t : String),
        (get_topic_path_fuel g (graph_fuel g) [t] [t] t).isSome)
    ∧ get_topic_depth cycle_graph "a" = 3
    ∧ get_topic_path cycle_graph "a" = ["a", "b", "c"] := by
  refine ⟨?_, ?_, ?_, by decide, by decide⟩
  · intro g visited t fuel hv
    simp only [get_topic_depth_fuel]
    rw [if_pos hv]
  · intro g t
    refine get_topic_depth_fuel_isSome g (graph_fuel g) [] t ?_
    calc ((edge_endpoints g).filter (fun x => x ∉ ([] : List String))).card
        ≤ (edge_endpoints g).card := Finset.card_filter_le _ _
      _ < graph_fuel g := Nat.lt_succ_self _
  · intro g t
    refine get_topic_path_fuel_isSome g (graph_fuel g) [t] [t] t ?_
    calc ((edge_endpoints g).filter (fun x => x ∉ [t])).card
        ≤ (edge_endpoints g).card := Finset.card_filter_le _ _
      _ < graph_fuel g := Nat.lt_succ_self _

/-- C7 witness: the cycle-stop conjunct applied at a concrete visited
set. -/
theorem hierarchy_traversals_terminate_witness :
    ("a" ∈ ["a", "b"]) ∧
    get_topic_depth_fuel cycle_graph 1 ["a", "b"] "a" = some 0 :=
  ⟨by decide, hierarchy_traversals_terminate.1 cycle_graph ["a", "b"] "a" 0
    (by decide)⟩

/-- C9 helper: dropping the zero entries does not change the
`p·log2 p` sum over a nonnegative list. -/
lemma filter_pos_logb_sum (l : List ℝ) (h : ∀ x ∈ l, 0 ≤ x) :
    ((l.filter (fun p => 0 < p)).map (fun p => p * Real.logb 2 p)).sum
      = (l.map (fun p => p * Real.logb 2 p)).sum := by
  induction l with
  | nil => rfl
  | cons x xs ih =>
    have hxs := ih (fun z hz => h z (List.mem_cons_of_mem x hz))
    by_cases hx : 0 < x
    · simp [List.filter_cons, hx, hxs]
    · have hx0 : x = 0 :=
        le_antisymm (not_lt.mp hx) (h x (List.mem_cons_self x xs))
      subst hx0
      simp [List.filter_cons, hxs]

/-- C9 helper: the implementation entropy equals the spec's Shannon
entropy. -/
lemma impl_entropy_eq_shannon (freqs : List ℕ) :
    impl_entropy freqs = shannon_entropy freqs := by
  unfold impl_entropy shannon_entropy
  by_cases h : 0 < freqs.sum
  · rw [if_pos h]
    dsimp only
    have hnn : ∀ x ∈ freqs.map (fun (f : ℕ) => (f : ℝ) / (freqs.sum : ℝ)),
        0 ≤ x := by
      intro x hx
      obtain ⟨f, _, rfl⟩ := List.mem_map.mp hx
      positivity
    rw [filter_pos_logb_sum _ hnn, List.map_map]
    rfl
  · rw [if_neg h]
    dsimp only
    have hz : ∀ f ∈ freqs, f = 0 :=
      List.sum_eq_zero_iff.mp (Nat.eq_zero_of_not_pos h)
    have hterms : ∀ y ∈ freqs.map
        (fun (f : ℕ) => ((f : ℝ) / (freqs.sum : ℝ)) *
          Real.logb 2 ((f : ℝ) / (freqs.sum : ℝ))), y = 0 := by
      intro y hy
      obtain ⟨f, hf, rfl⟩ := List.mem_map.mp hy
      rw [hz f hf]
      simp
    rw [List.sum_eq_zero hterms]
    simp

/-- C9 helper: the implementation normalization is division by
`log2(topic_count)` whenever at least one topic exists. -/
lemma impl_normalized_eq_div (freqs : List ℕ) (n : ℕ) (hn : 1 ≤ n) :
    impl_normalized freqs n = impl_entropy freqs / Real.logb 2 (n : ℝ) := by
  unfold impl_normalized
  by_cases h : 0 < freqs.sum
  · rw [if_pos h]
    by_cases hl : 0 < Real.logb 2 (n : ℝ)
    · rw [if_pos hl]
    · rw [if_neg hl]
      have h0 : Real.logb 2 (n : ℝ) = 0 :=
        le_antisymm (not_lt.mp hl)
          (Real.logb_nonneg one_lt_two (by exact_mod_cast hn))
      rw [h0, div_zero]
  · rw [if_neg h]
    have he : impl_entropy freqs = 0 := by unfold impl_entropy; rw [if_neg h]
    rw [he, zero_div]

/-- C9 helper: field extraction from a successful
`calculate_diversity_metrics` call. -/
lemma diversity_metrics_fields {g : MGraph} {m : DiversityMetrics}
    (hm : calculate_diversity_metrics g = some m) :
    m.topic_entropy = shannon_entropy (graph_topic_frequencies g) ∧
    m.normalized_entropy =
      m.topic_entropy / Real.logb 2 (((g.query "Topic").length : ℝ)) := by
  by_cases hg : ((g.query "Page").isEmpty || (g.query "Topic").isEmpty)
  · unfold calculate_diversity_metrics at hm
    rw [if_pos hg] at hm
    cases hm
  · unfold calculate_diversity_metrics at hm
    rw [if_neg hg] at hm
    have hrec := Option.some.inj hm
    have hne : g.query "Topic" ≠ [] := by
      intro hnil
      apply hg
      rw [hnil]
      simp
    have hn : 1 ≤ (g.query "Topic").length := List.length_pos.mpr hne
    constructor
    · rw [← hrec]
      exact impl_entropy_eq_shannon _
    · rw [← hrec]
      show impl_normalized (graph_topic_frequencies g)
          ((g.query "Topic").length) = _
      rw [impl_normalized_eq_div _ _ hn, impl_entropy_eq_shannon]

/-- C5 helper: `get_node` only looks at the node list. -/
lemma get_node_congr {g g' : MGraph} (h : g'.nodes = g.nodes) (x : String) :
    g'.get_node x = g.get_node x := by
  unfold MGraph.get_node
  rw [h]

/-- C5 helper: with both endpoints present, `create_related_topic_edge`
appends exactly the symmetric edge pair. -/
lemma create_related_topic_edge_eq {g : MGraph} {a b : String} (s : ℚ)
    (ha : (g.get_node a).isSome) (hb : (g.get_node b).isSome) :
    create_related_topic_edge g a b s =
      { g with edges := g.edges ++ related_edge_pair (a, b, s) } := by
  obtain ⟨na, hna⟩ := Option.isSome_iff_exists.mp ha
  obtain ⟨nb, hnb⟩ := Option.isSome_iff_exists.mp hb
  unfold create_related_topic_edge
  rw [hna, hnb]
  unfold MGraph.add_edge related_edge_pair
  simp

/-- C5 helper: the spec pair list decomposes along the head of the id
list. -/
lemma related_pairs_spec_cons (sims : String × String → Option ℚ) (θ : ℚ)
    (t1 : String) (rest : List String) :
    related_pairs_spec sims θ (t1 :: rest) =
      inner_qual sims θ t1 rest ++ related_pairs_spec sims θ rest := by
  unfold related_pairs_spec inner_qual
  rw [show ordered_pairs (t1 :: rest) =
      rest.map (fun y => (t1, y)) ++ ordered_pairs rest from rfl,
    List.filterMap_append, List.filterMap_map]
  rfl

/-- C5 helper: a normalized key involving `t1` cannot equal one of two ids
different from `t1`. -/
lemma norm_pair_ne_of_not_mem {t1 x y z : String} (hx : x ≠ t1) (hy : y ≠ t1) :
    norm_pair x y ≠ norm_pair t1 z := by
  unfold norm_pair
  split_ifs <;> intro h <;> injection h with h1 h2 <;> subst_vars <;>
    first
      | exact hx rfl
      | exact hy rfl

/-- C5 inner-loop characterization: each second id is processed once, the
qualifying pairs append their symmetric edge pairs and bump the count by one
each, and every key added to the processed set involves `t1`. -/
lemma build_related_inner_char (sims : String × String → Option ℚ) (θ : ℚ)
    (t1 : String) :
    ∀ (rest : List String) (g : MGraph)
      (processed : List (String × String)) (c : ℕ),
      (g.get_node t1).isSome →
      (∀ y ∈ rest, (g.get_node y).isSome) →
      rest.Nodup →
      (∀ y ∈ rest, norm_pair t1 y ∉ processed) →
      ∃ processed',
        build_related_inner sims θ t1 rest (g, processed, c) =
          ({ g with edges := g.edges ++
              (inner_qual sims θ t1 rest).flatMap related_edge_pair },
            processed', c + (inner_qual sims θ t1 rest).length) ∧
        ∀ k ∈ processed', k ∈ processed ∨ ∃ y ∈ rest, k = norm_pair t1 y := by
  intro rest
  induction rest with
  | nil =>
    intro g processed c _ _ _ _
    refine ⟨processed, ?_, fun k hk => Or.inl hk⟩
    simp [build_related_inner, inner_qual]
  | cons y ys ih =>
    intro g processed c ht1 hys hnd hnp
    have hymem : norm_pair t1 y ∉ processed :=
      hnp y (List.mem_cons_self y ys)
    have hstep : build_related_inner sims θ t1 (y :: ys) (g, processed, c) =
        (match lookup_sim sims t1 y with
         | none => build_related_inner sims θ t1 ys (g, processed, c)
         | some s =>
           if θ ≤ s then
             build_related_inner sims θ t1 ys
               (create_related_topic_edge g t1 y s,
                 norm_pair t1 y :: processed, c + 1)
           else build_related_inner sims θ t1 ys (g, processed, c)) := by
      conv_lhs => rw [build_related_inner]
      rw [if_neg hymem]
    cases hls : lookup_sim sims t1 y with
    | none =>
      obtain ⟨p', hp', hchar⟩ := ih g processed c ht1
        (fun z hz => hys z (List.mem_cons_of_mem y hz)) hnd.of_cons
        (fun z hz => hnp z (List.mem_cons_of_mem y hz))
      refine ⟨p', ?_, ?_⟩
      · rw [hstep, hls]
        rw [hp']
        simp [inner_qual, List.filterMap_cons, hls]
      · intro k hk
        rcases hchar k hk with h | ⟨z, hz, hkz⟩
        · exact Or.inl h
        · exact Or.inr ⟨z, List.mem_cons_of_mem y hz, hkz⟩
    | some s =>
      by_cases hθ : θ ≤ s
      · have hcre := create_related_topic_edge_eq s ht1
          (hys y (List.mem_cons_self y ys))
        set g1 := { g with
          edges := g.edges ++ related_edge_pair (t1, y, s) } with hg1
        have hnodes : g1.nodes = g.nodes := rfl
        obtain ⟨p', hp', hchar⟩ := ih g1 (norm_pair t1 y :: processed) (c + 1)
          (by rw [get_node_congr hnodes]; exact ht1)
          (fun z hz => by
            rw [get_node_congr hnodes]
            exact hys z (List.mem_cons_of_mem y hz))
          hnd.of_cons
          (fun z hz => by
            have hzy : z ≠ y := fun h => (List.nodup_cons.mp hnd).1 (h ▸ hz)
            intro hmem
            rcases List.mem_cons.mp hmem with heq | hmem'
            · have : norm_pair t1 z = norm_pair t1 y := heq
              unfold norm_pair at this
              split_ifs at this <;> injection this with h1 h2 <;>
                subst_vars <;> exact hzy rfl
            · exact hnp z (List.mem_cons_of_mem y hz) hmem')
        refine ⟨p', ?_, ?_⟩
        · rw [hstep, hls]
          dsimp only
          rw [if_pos hθ, hcre, hp']
          have hq : inner_qual sims θ t1 (y :: ys) =
              (t1, y, s) :: inner_qual sims θ t1 ys := by
            simp [inner_qual, List.filterMap_cons, hls, hθ]
          rw [hq]
          simp only [List.flatMap_cons, List.length_cons]
          rw [List.append_assoc]
          have hc : c + 1 + (inner_qual sims θ t1 ys).length =
              c + ((inner_qual sims θ t1 ys).length + 1) := by omega
          rw [hc]
        · intro k hk
          rcases hchar k hk with h | ⟨z, hz, hkz⟩
          · rcases List.mem_cons.mp h with heq | hmem'
            · exact Or.inr ⟨y, List.mem_cons_self y ys, heq⟩
            · exact Or.inl hmem'
          · exact Or.inr ⟨z, List.mem_cons_of_mem y hz, hkz⟩
      · obtain ⟨p', hp', hchar⟩ := ih g processed c ht1
          (fun z hz => hys z (List.mem_cons_of_mem y hz)) hnd.of_cons
          (fun z hz => hnp z (List.mem_cons_of_mem y hz))
        refine ⟨p', ?_, ?_⟩
        · rw [hstep, hls]
          dsimp only
          rw [if_neg hθ, hp']
          simp [inner_qual, List.filterMap_cons, hls, hθ]
        · intro k hk
          rcases hchar k hk with h | ⟨z, hz, hkz⟩
          · exact Or.inl h
          · exact Or.inr ⟨z, List.mem_cons_of_mem y hz, hkz⟩

/-- C5 outer-loop characterization: with pairwise-distinct ids all present
in the store and no upcoming pair key already processed, the loop appends
exactly the symmetric edge pairs of the qualifying pairs and counts each
once. -/
lemma build_related_outer_char (sims : String × String → Option ℚ) (θ : ℚ) :
    ∀ (ids : List String) (g : MGraph)
      (processed : List (String × String)) (c : ℕ),
      ids.Nodup →
      (∀ y ∈ ids, (g.get_node y).isSome) →
      (∀ x y, x ∈ ids → y ∈ ids → norm_pair x y ∉ processed) →
      ∃ processed',
        build_related_outer sims θ ids (g, processed, c) =
          ({ g with edges := g.edges ++
              (related_pairs_spec sims θ ids).flatMap related_edge_pair },
            processed', c + (related_pairs_spec sims θ ids).length) := by
  intro ids
  induction ids with
  | nil =>
    intro g processed c _ _ _
    refine ⟨processed, ?_⟩
    simp [build_related_outer, related_pairs_spec, ordered_pairs]
  | cons t1 rest ih =>
    intro g processed c hnd hpresent hnp
    have ht1 : (g.get_node t1).isSome := hpresent t1 (List.mem_cons_self t1 rest)
    have ht1r : t1 ∉ rest := (List.nodup_cons.mp hnd).1
    obtain ⟨p1, hp1, hchar1⟩ := build_related_inner_char sims θ t1 rest g
      processed c ht1
      (fun z hz => hpresent z (List.mem_cons_of_mem t1 hz))
      hnd.of_cons
      (fun z hz => hnp t1 z (List.mem_cons_self t1 rest)
        (List.mem_cons_of_mem t1 hz))
    set g1 : MGraph := { g with edges := g.edges ++
      (inner_qual sims θ t1 rest).flatMap related_edge_pair } with hg1
    have hnodes1 : g1.nodes = g.nodes := rfl
    obtain ⟨p2, hp2⟩ := ih g1 p1 (c + (inner_qual sims θ t1 rest).length)
      hnd.of_cons
      (fun z hz => by
        rw [get_node_congr hnodes1]
        exact hpresent z (List.mem_cons_of_mem t1 hz))
      (fun x z hx hz hmem => by
        rcases hchar1 (norm_pair x z) hmem with h | ⟨w, _, hw⟩
        · exact hnp x z (List.mem_cons_of_mem t1 hx)
            (List.mem_cons_of_mem t1 hz) h
        · exact norm_pair_ne_of_not_mem
            (fun h => ht1r (by rw [← h]; exact hx))
            (fun h => ht1r (by rw [← h]; exact hz)) hw)
    refine ⟨p2, ?_⟩
    show build_related_outer sims θ (t1 :: rest) (g, processed, c) = _
    rw [show build_related_outer sims θ (t1 :: rest) (g, processed, c) =
        build_related_outer sims θ rest
          (build_related_inner sims θ t1 rest (g, processed, c)) from rfl,
      hp1, hp2, related_pairs_spec_cons]
    rw [List.flatMap_append, List.length_append]
    rw [hg1]
    dsimp only
    rw [List.append_assoc, Nat.add_assoc]

/-- C5.  `build_related_topics` on pairwise-distinct ids all present in the
store: the returned count is the number of unordered pairs whose similarity
is known in some direction and at least the threshold; each such pair
contributes exactly its two directed `RELATED_TOPIC` edges with the same
similarity payload; pairs with unknown similarity contribute nothing; the
node set is untouched.  On the spec's three-topic example with threshold
0.5 the count is 1 and exactly the two edges t1→t2, t2→t1 are created. -/
theorem build_related_topics_spec :
    (∀ (g : MGraph) (ids : List String)
      (sims : String × String → Option ℚ) (θ : ℚ),
      ids.Nodup → (∀ y ∈ ids, (g.get_node y).isSome) →
        (build_related_topics g ids sims θ).2 =
            (related_pairs_spec sims θ ids).length ∧
          (build_related_topics g ids sims θ).1.edges =
            g.edges ++ (related_pairs_spec sims θ ids).flatMap related_edge_pair ∧
          (build_related_topics g ids sims θ).1.nodes = g.nodes)
    ∧ (build_related_topics three_topic_graph ["t1", "t2", "t3"]
        example_sims (1/2)).2 = 1
    ∧ (build_related_topics three_topic_graph ["t1", "t2", "t3"]
        example_sims (1/2)).1.edges =
        [⟨"t1", "t2", "RELATED_TOPIC", some (9996/10000)⟩,
         ⟨"t2", "t1", "RELATED_TOPIC", some (9996/10000)⟩] := by
  have hgen : ∀ (g : MGraph) (ids : List String)
      (sims : String × String → Option ℚ) (θ : ℚ),
      ids.Nodup → (∀ y ∈ ids, (g.get_node y).isSome) →
        (build_related_topics g ids sims θ).2 =
            (related_pairs_spec sims θ ids).length ∧
          (build_related_topics g ids sims θ).1.edges =
            g.edges ++
              (related_pairs_spec sims θ ids).flatMap related_edge_pair ∧
          (build_related_topics g ids sims θ).1.nodes = g.nodes := by
    intro g ids sims θ hnd hpresent
    obtain ⟨p', hp'⟩ := build_related_outer_char sims θ ids g [] 0 hnd hpresent
      (fun x y _ _ h => by cases h)
    unfold build_related_topics
    rw [hp']
    dsimp only
    exact ⟨Nat.zero_add _, rfl, rfl⟩
  have hspec : related_pairs_spec example_sims (1/2) ["t1", "t2", "t3"] =
      [("t1", "t2", 9996/10000)] := by
    have h1 : (((2 : ℚ))⁻¹ ≤ 9996/10000) := by norm_num
    have h2 : ¬(((2 : ℚ))⁻¹ ≤ 0) := by norm_num
    have h3 : ¬(((2 : ℚ))⁻¹ ≤ 2/100) := by norm_num
    simp [related_pairs_spec, ordered_pairs, lookup_sim, example_sims,
      List.filterMap_cons, h1, h2, h3]
  have hconc := hgen three_topic_graph ["t1", "t2", "t3"] example_sims (1/2)
    (by decide) (by decide)
  refine ⟨hgen, ?_, ?_⟩
  · rw [hconc.1, hspec]
    rfl
  · rw [hconc.2.1, hspec]
    rfl

/-- C5 witness: the general conjunct applied to the three-topic example. -/
theorem build_related_topics_spec_witness :
    ((["t1", "t2", "t3"] : List String).Nodup ∧
      (∀ y ∈ (["t1", "t2", "t3"] : List String),
        (three_topic_graph.get_node y).isSome)) ∧
    (build_related_topics three_topic_graph ["t1", "t2", "t3"]
        example_sims (1/2)).2 =
      (related_pairs_spec example_sims (1/2) ["t1", "t2", "t3"]).length :=
  ⟨⟨by decide, by decide⟩,
    (build_related_topics_spec.1 three_topic_graph ["t1", "t2", "t3"]
      example_sims (1/2) (by decide) (by decide)).1⟩

/-- C9 helper: `log2` of the concrete probabilities. -/
lemma logb_two_quarter : Real.logb 2 ((10 : ℝ) / 40) = -2 := by
  have h1 : ((10 : ℝ) / 40) = ((4 : ℝ))⁻¹ := by norm_num
  have h4 : ((4 : ℝ)) = (2 : ℝ) ^ (2 : ℕ) := by norm_num
  rw [h1, Real.logb_inv, h4, Real.logb_pow, Real.logb_self_eq_one one_lt_two]
  norm_num

/-- C9 helper: the concrete Shannon entropy value. -/
lemma shannon_entropy_uniform_four :
    shannon_entropy [10, 10, 10, 10] = 2 := by
  unfold shannon_entropy
  dsimp only
  simp only [List.map_cons, List.map_nil, List.sum_cons, List.sum_nil]
  have harg : (((10 : ℕ) : ℝ) /
      (((10 + (10 + (10 + (10 + 0))) : ℕ) : ℝ))) = (10 : ℝ) / 40 := by
    push_cast
    norm_num
  rw [harg, logb_two_quarter]
  norm_num

/-- C9.  `calculate_diversity_metrics` reports the base-2 Shannon entropy of
the topic frequency distribution, normalizes it by `log2(topic_count)`
(yielding 0 when the total frequency is 0 or a single topic exists), and on
4 topics of frequency 10 each reports entropy exactly 2 bits and normalized
entropy exactly 1. -/
theorem diversity_entropy_spec :
    (∀ (g : MGraph) (m : DiversityMetrics),
      calculate_diversity_metrics g = some m →
        m.topic_entropy = shannon_entropy (graph_topic_frequencies g) ∧
        m.normalized_entropy =
          m.topic_entropy / Real.logb 2 (((g.query "Topic").length : ℝ)) ∧
        ((graph_topic_frequencies g).sum = 0 ∨ (g.query "Topic").length = 1 →
          m.normalized_entropy = 0))
    ∧ (∃ m, calculate_diversity_metrics diversity_graph = some m ∧
        m.topic_entropy = 2 ∧ m.normalized_entropy = 1) := by
  constructor
  · intro g m hm
    obtain ⟨he, hnorm⟩ := diversity_metrics_fields hm
    refine ⟨he, hnorm, ?_⟩
    rintro (hz | hone)
    · have : shannon_entropy (graph_topic_frequencies g) = 0 := by
        rw [← impl_entropy_eq_shannon]
        unfold impl_entropy
        rw [if_neg (by omega)]
      rw [hnorm, he, this, zero_div]
    · rw [hnorm, hone]
      simp [Real.logb_one]
  · obtain ⟨m, hm⟩ : ∃ m, calculate_diversity_metrics diversity_graph = some m := by
      unfold calculate_diversity_metrics
      rw [if_neg (by decide)]
      exact ⟨_, rfl⟩
    obtain ⟨he, hnorm⟩ := diversity_metrics_fields hm
    have hfreq : graph_topic_frequencies diversity_graph = [10, 10, 10, 10] := by
      decide
    have hlen : (diversity_graph.query "Topic").length = 4 := by decide
    have he2 : m.topic_entropy = 2 := by
      rw [he, hfreq, shannon_entropy_uniform_four]
    refine ⟨m, hm, he2, ?_⟩
    rw [hnorm, he2, hlen]
    have h4 : ((4 : ℕ) : ℝ) = (2 : ℝ) ^ (2 : ℕ) := by norm_num
    rw [h4, Real.logb_pow, Real.logb_self_eq_one one_lt_two]
    norm_num

section Clusterer

variable {α : Type} [LinearOrderedField α]

/-- C2 helper: `getD` on a constant list. -/
lemma getD_replicate_one : ∀ (n i : ℕ), i < n →
    (List.replicate n 1).getD i 0 = 1 := by
  intro n
  induction n with
  | zero => intro i h; exact absurd h (Nat.not_lt_zero _)
  | succ n ih =>
    intro i h
    cases i with
    | zero => rfl
    | succ i => exact ih i (Nat.lt_of_succ_lt_succ h)

/-- C2 helper: the label-1 member indices of an all-1 labelling are all
indices. -/
lemma cluster_indices_replicate (n : ℕ) :
    cluster_indices (List.replicate n 1) 1 = List.range n := by
  unfold cluster_indices
  rw [List.length_replicate]
  apply List.filter_eq_self.mpr
  intro i hi
  have h1 := getD_replicate_one n i (List.mem_range.mp hi)
  exact decide_eq_true h1

omit [LinearOrderedField α] in
/-- C2 helper: selecting every index selects every topic. -/
lemma map_getD_range (topics : List (Topic α)) :
    (List.range topics.length).map (fun i => topics.getD i default) = topics := by
  apply List.ext_getElem
  · simp
  · intro i h1 h2
    simp only [List.getElem_map, List.getElem_range]
    rw [List.getD_eq_getElem]

/-- C2 helper: deduplicating a constant nonempty list. -/
lemma dedup_replicate_one : ∀ (n : ℕ), 0 < n →
    (List.replicate n 1).dedup = [1] := by
  intro n
  induction n with
  | zero => intro h; exact absurd h (Nat.lt_irrefl 0)
  | succ n ih =>
    intro _
    cases n with
    | zero => rfl
    | succ m =>
      have hmem : (1 : ℕ) ∈ List.replicate (m + 1) 1 := by simp
      have hstep : ((1 : ℕ) :: List.replicate (m + 1) 1).dedup =
          (List.replicate (m + 1) 1).dedup := List.dedup_cons_of_mem hmem
      rw [List.replicate_succ, hstep, ih (Nat.succ_pos m)]

/-- C2 key lemma: when the clustering routine always returns a single label
group and the group exceeds `max_size`, `_create_clusters` re-enters itself
on identical data and exhausts any amount of fuel. -/
lemma create_clusters_const_none
    (hc : List (Topic α) → (ℕ → ℕ → α) → List ℕ)
    (hhc : ∀ ts s, hc ts s = List.replicate ts.length 1)
    (mn mx : ℕ) :
    ∀ (fuel : ℕ) (topics : List (Topic α)) (sim : ℕ → ℕ → α),
      mx < topics.length → ¬(topics.length < mn) →
      create_clusters_fuel hc mn mx fuel topics
        (List.replicate topics.length 1) sim = none := by
  intro fuel
  induction fuel with
  | zero => intro topics sim _ _; rfl
  | succ fuel ih =>
    intro topics sim hmx hmn
    have hn : 0 < topics.length := Nat.lt_of_le_of_lt (Nat.zero_le mx) hmx
    show create_clusters_go (create_clusters_fuel hc mn mx fuel) hc mn mx
      topics (List.replicate topics.length 1) sim
      (List.replicate topics.length 1).dedup [] = none
    rw [dedup_replicate_one topics.length hn]
    rw [show create_clusters_go (create_clusters_fuel hc mn mx fuel) hc mn mx
        topics (List.replicate topics.length 1) sim [1] [] =
        (let idxs := cluster_indices (List.replicate topics.length 1) 1
         let members := idxs.map (fun i => topics.getD i default)
         if members.length < mn then
           create_clusters_go (create_clusters_fuel hc mn mx fuel) hc mn mx
             topics (List.replicate topics.length 1) sim [] []
         else if mx < members.length then
           let sub_sim := fun a b => sim (idxs.getD a 0) (idxs.getD b 0)
           let sub_labels := hc members sub_sim
           match create_clusters_fuel hc mn mx fuel members sub_labels
               sub_sim with
           | none => none
           | some subs =>
             create_clusters_go (create_clusters_fuel hc mn mx fuel) hc mn mx
               topics (List.replicate topics.length 1) sim [] ([] ++ subs)
         else
           let m := members.length
           let sub_sim := fun a b => sim (idxs.getD a 0) (idxs.getD b 0)
           let pairs := upper_pairs m
           let avg := (pairs.map (fun p => sub_sim p.1 p.2)).sum /
             (pairs.length : α)
           let mean_similarities := (List.range m).map
             (fun a => ((List.range m).map (fun b => sub_sim a b)).sum / (m : α))
           let centroid := members.getD (argmax_idx mean_similarities) default
           create_clusters_go (create_clusters_fuel hc mn mx fuel) hc mn mx
             topics (List.replicate topics.length 1) sim []
             ([] ++ [({ cluster_id := ([] : List (TopicCluster α)).length + 1
                        topics := members
                        centroid_topic := centroid
                        avg_similarity := avg
                        size := members.length } : TopicCluster α)]))
      from rfl]
    rw [cluster_indices_replicate]
    dsimp only
    rw [map_getD_range]
    rw [if_neg hmn, if_pos hmx, hhc]
    have hrec := ih topics
      (fun a b => sim ((List.range topics.length).getD a 0)
        ((List.range topics.length).getD b 0)) hmx hmn
    rw [hrec]

/-- C2.  `cluster_topics` does not terminate on the pathological input: with
a clustering routine that keeps the oversized group whole (as scipy does on
an all-equal similarity matrix), every fuel bound is exhausted — the source
recursion has no depth bound or non-progress detection. -/
theorem create_clusters_unbounded_recursion :
    ∀ fuel : ℕ,
      cluster_topics_fuel uniform_simFn hc_const 2 20 fuel patho_topics =
        none := by
  intro fuel
  unfold cluster_topics_fuel
  rw [if_neg (by decide)]
  dsimp only
  rw [show patho_topics.filter (fun t => t.embedding.isSome) = patho_topics
    from by decide]
  rw [if_neg (by decide)]
  have h21 : patho_topics.length = 21 := by decide
  have := create_clusters_const_none (α := ℚ) hc_const
    (fun ts s => rfl) 2 20 fuel patho_topics (uniform_simFn patho_topics)
    (by rw [h21]; omega) (by rw [h21]; omega)
  rw [show (List.replicate patho_topics.length 1 : List ℕ) =
      hc_const patho_topics (uniform_simFn patho_topics) from rfl] at this
  exact this

/-- C8 helper: the loop of `_create_clusters` only emits clusters whose size
is within the bounds, provided the recursive calls do. -/
lemma create_clusters_go_sizes
    (recurse : List (Topic α) → List ℕ → (ℕ → ℕ → α) →
      Option (List (TopicCluster α)))
    (hc : List (Topic α) → (ℕ → ℕ → α) → List ℕ)
    (mn mx : ℕ) (topics : List (Topic α)) (labels : List ℕ)
    (sim : ℕ → ℕ → α)
    (hrec : ∀ ts ls s cs', recurse ts ls s = some cs' →
      ∀ c ∈ cs', mn ≤ c.size ∧ c.size ≤ mx) :
    ∀ (pending : List ℕ) (acc cs : List (TopicCluster α)),
      (∀ c ∈ acc, mn ≤ c.size ∧ c.size ≤ mx) →
      create_clusters_go recurse hc mn mx topics labels sim pending acc =
        some cs →
      ∀ c ∈ cs, mn ≤ c.size ∧ c.size ≤ mx := by
  intro pending
  induction pending with
  | nil =>
    intro acc cs hacc h
    obtain rfl : acc = cs := Option.some.inj h
    exact hacc
  | cons ℓ rest ih =>
    intro acc cs hacc h
    rw [show create_clusters_go recurse hc mn mx topics labels sim
        (ℓ :: rest) acc =
        (let idxs := cluster_indices labels ℓ
         let members := idxs.map (fun i => topics.getD i default)
         if members.length < mn then
           create_clusters_go recurse hc mn mx topics labels sim rest acc
         else if mx < members.length then
           let sub_sim := fun a b => sim (idxs.getD a 0) (idxs.getD b 0)
           let sub_labels := hc members sub_sim
           match recurse members sub_labels sub_sim with
           | none => none
           | some subs =>
             create_clusters_go recurse hc mn mx topics labels sim rest
               (acc ++ subs)
         else
           let m := members.length
           let sub_sim := fun a b => sim (idxs.getD a 0) (idxs.getD b 0)
           let pairs := upper_pairs m
           let avg := (pairs.map (fun p => sub_sim p.1 p.2)).sum /
             (pairs.length : α)
           let mean_similarities := (List.range m).map
             (fun a => ((List.range m).map (fun b => sub_sim a b)).sum / (m : α))
           let centroid := members.getD (argmax_idx mean_similarities) default
           create_clusters_go recurse hc mn mx topics labels sim rest
             (acc ++ [{ cluster_id := acc.length + 1
                        topics := members
                        centroid_topic := centroid
                        avg_similarity := avg
                        size := members.length }])) from rfl] at h
    dsimp only at h
    by_cases hsmall :
        ((cluster_indices labels ℓ).map (fun i => topics.getD i default)).length
          < mn
    · rw [if_pos hsmall] at h
      exact ih acc cs hacc h
    · rw [if_neg hsmall] at h
      by_cases hbig : mx <
          ((cluster_indices labels ℓ).map (fun i => topics.getD i default)).length
      · rw [if_pos hbig] at h
        cases hr : recurse
            ((cluster_indices labels ℓ).map (fun i => topics.getD i default))
            (hc ((cluster_indices labels ℓ).map (fun i => topics.getD i default))
              (fun a b => sim ((cluster_indices labels ℓ).getD a 0)
                ((cluster_indices labels ℓ).getD b 0)))
            (fun a b => sim ((cluster_indices labels ℓ).getD a 0)
              ((cluster_indices labels ℓ).getD b 0)) with
        | none => rw [hr] at h; cases h
        | some subs =>
          rw [hr] at h
          refine ih (acc ++ subs) cs ?_ h
          intro c hc'
          rcases List.mem_append.mp hc' with hmem | hmem
          · exact hacc c hmem
          · exact hrec _ _ _ _ hr c hmem
      · rw [if_neg hbig] at h
        refine ih _ cs ?_ h
        intro c hc'
        rcases List.mem_append.mp hc' with hmem | hmem
        · exact hacc c hmem
        · rcases List.mem_singleton.mp hmem with rfl
          exact ⟨Nat.le_of_not_lt hsmall, Nat.le_of_not_lt hbig⟩

/-- C8 helper: every cluster returned by the fueled `_create_clusters` has
size within the bounds. -/
lemma create_clusters_fuel_sizes
    (hc : List (Topic α) → (ℕ → ℕ → α) → List ℕ) (mn mx : ℕ) :
    ∀ (fuel : ℕ) (topics : List (Topic α)) (labels : List ℕ)
      (sim : ℕ → ℕ → α) (cs : List (TopicCluster α)),
      create_clusters_fuel hc mn mx fuel topics labels sim = some cs →
      ∀ c ∈ cs, mn ≤ c.size ∧ c.size ≤ mx := by
  intro fuel
  induction fuel with
  | zero => intro topics labels sim cs h; cases h
  | succ fuel ih =>
    intro topics labels sim cs h
    exact create_clusters_go_sizes (create_clusters_fuel hc mn mx fuel) hc
      mn mx topics labels sim (fun ts ls s cs' h' => ih ts ls s cs' h')
      labels.dedup [] cs (fun c hmem => absurd hmem (List.not_mem_nil c)) h

/-- C8.  Whenever `cluster_topics` returns, every returned cluster has at
least `min_cluster_size` and at most `max_cluster_size` members: undersized
label groups are dropped, oversized ones are never returned whole. -/
theorem cluster_topics_size_bounds {β : Type} [LinearOrderedField β]
    (simFn : List (Topic β) → ℕ → ℕ → β)
    (hc : List (Topic β) → (ℕ → ℕ → β) → List ℕ)
    (mn mx fuel : ℕ) (topics : List (Topic β))
    (cs : List (TopicCluster β))
    (h : cluster_topics_fuel simFn hc mn mx fuel topics = some cs) :
    ∀ c ∈ cs, mn ≤ c.size ∧ c.size ≤ mx := by
  unfold cluster_topics_fuel at h
  by_cases h2 : topics.length < 2
  · rw [if_pos h2] at h
    obtain rfl : ([] : List (TopicCluster β)) = cs := Option.some.inj h
    intro c hmem
    exact absurd hmem (List.not_mem_nil c)
  · rw [if_neg h2] at h
    dsimp only at h
    by_cases hv : (topics.filter (fun t => t.embedding.isSome)).length < 2
    · rw [if_pos hv] at h
      obtain rfl : ([] : List (TopicCluster β)) = cs := Option.some.inj h
      intro c hmem
      exact absurd hmem (List.not_mem_nil c)
    · rw [if_neg hv] at h
      exact create_clusters_fuel_sizes hc mn mx fuel _ _ _ cs h

/-- C1 helper: `max?` over an appended singleton. -/
lemma max?_append_single {l : List α} {m : α} (x : α) (h : l.max? = some m) :
    (l ++ [x]).max? = some (max m x) := by
  cases l with
  | nil => cases h
  | cons a as =>
    have hm : as.foldl max a = m := by
      have hdef : (a :: as).max? = some (as.foldl max a) := rfl
      rw [hdef] at h
      exact Option.some.inj h
    show some ((as ++ [x]).foldl max a) = some (max m x)
    rw [List.foldl_append, hm]
    rfl

/-- C1 helper: one fold step of the root loop. -/
lemma find_best_parent_append (θ : α) (sims : Topic α → α)
    (l : List (Topic α)) (r : Topic α) :
    find_best_parent θ sims (l ++ [r]) =
      (let s := sims r
       if (find_best_parent θ sims l).1 < s ∧ θ ≤ s then (s, some r)
       else find_best_parent θ sims l) := by
  unfold find_best_parent
  rw [List.foldl_append]
  rfl

/-- C1 key lemma: the source's running-maximum loop computes the maximum
similarity and the first root attaining it (when the maximum passes the
threshold), for thresholds above the `-1` sentinel. -/
lemma find_best_parent_eq (θ : α) (hθ : -1 < θ) (sims : Topic α → α) :
    ∀ roots : List (Topic α),
      find_best_parent θ sims roots =
        match (roots.map sims).max? with
        | none => (-1, none)
        | some m =>
          if θ ≤ m then (m, roots.find? (fun r => sims r = m))
          else (-1, none) := by
  intro roots
  induction roots using List.reverseRecOn with
  | nil => rfl
  | append_singleton l r ih =>
    rw [find_best_parent_append, ih]
    have hmap : (l ++ [r]).map sims = l.map sims ++ [sims r] := by simp
    cases hmax : (l.map sims).max? with
    | none =>
      have hl : l = [] := by
        have := List.max?_eq_none_iff.mp hmax
        simpa using this
      subst hl
      have hm1 : ((([] : List (Topic α)) ++ [r]).map sims).max? =
          some (sims r) := rfl
      rw [hm1]
      dsimp only
      by_cases hs : θ ≤ sims r
      · rw [if_pos ⟨lt_of_lt_of_le hθ hs, hs⟩, if_pos hs, List.nil_append,
          List.find?_cons_of_pos _ (by simp)]
      · rw [if_neg (fun hand : (-1 : α) < sims r ∧ θ ≤ sims r => hs hand.2),
          if_neg hs]
    | some M =>
      have hbound : ∀ b ∈ l.map sims, b ≤ M :=
        (List.max?_le_iff (fun a b c => max_le_iff) hmax).1 (le_refl M)
      have hattain : M ∈ l.map sims := List.max?_mem max_choice hmax
      rw [hmap, max?_append_single (sims r) hmax]
      dsimp only
      by_cases hθM : θ ≤ M
      · rw [if_pos hθM]
        dsimp only
        by_cases hMs : M < sims r
        · have hθs : θ ≤ sims r := le_trans hθM (le_of_lt hMs)
          rw [if_pos ⟨hMs, hθs⟩, max_eq_right (le_of_lt hMs),
            if_pos hθs, List.find?_append]
          have hnone : l.find? (fun r' => sims r' = sims r) = none := by
            rw [List.find?_eq_none]
            intro x hx
            simp only [decide_eq_true_eq]
            intro heq
            exact absurd (heq ▸ hbound (sims x) (List.mem_map_of_mem sims hx))
              (not_le.mpr hMs)
          rw [hnone, Option.none_or,
            List.find?_cons_of_pos _ (by simp)]
        · rw [if_neg (fun hand => hMs hand.1), max_eq_left (not_lt.mp hMs),
            if_pos hθM, List.find?_append]
          obtain ⟨x, hxmem, hx⟩ := List.mem_map.mp hattain
          have hsome : (l.find? (fun r' => sims r' = M)).isSome := by
            rw [List.find?_isSome]
            exact ⟨x, hxmem, by simp [hx]⟩
          obtain ⟨y, hy⟩ := Option.isSome_iff_exists.mp hsome
          rw [hy, Option.or_some]
      · rw [if_neg hθM]
        dsimp only
        by_cases hs : θ ≤ sims r
        · have hMs : M < sims r := lt_of_lt_of_le (not_le.mp hθM) hs
          rw [if_pos ⟨lt_of_lt_of_le hθ hs, hs⟩,
            max_eq_right (le_of_lt hMs), if_pos hs, List.find?_append]
          have hnone : l.find? (fun r' => sims r' = sims r) = none := by
            rw [List.find?_eq_none]
            intro x hx
            simp only [decide_eq_true_eq]
            intro heq
            exact absurd (heq ▸ hbound (sims x) (List.mem_map_of_mem sims hx))
              (not_le.mpr hMs)
          rw [hnone, Option.none_or, List.find?_cons_of_pos _ (by simp)]
        · rw [if_neg (fun hand => hs hand.2)]
          have hmaxlt : max M (sims r) < θ :=
            max_lt (not_le.mp hθM) (not_le.mp hs)
          rw [if_neg (not_le.mpr hmaxlt)]

/-- C1 helper: under a threshold above `-1` the loop's chosen parent is the
spec's best root. -/
lemma best_parent_impl_eq_spec (θ : α) (hθ : -1 < θ) (simM : ℕ → ℕ → α)
    (topics roots : List (Topic α)) (t : Topic α) :
    best_parent_impl θ simM topics roots t =
      spec_best_root θ
        (fun r => simM (topic_index topics t.id) (topic_index topics r.id))
        roots := by
  unfold best_parent_impl spec_best_root
  rw [find_best_parent_eq θ hθ _ roots]
  cases (roots.map fun r =>
      simM (topic_index topics t.id) (topic_index topics r.id)).max? with
  | none => rfl
  | some m =>
    dsimp only
    by_cases hm : θ ≤ m
    · rw [if_pos hm, if_pos hm]
    · rw [if_neg hm, if_neg hm]

/-- C1 helper: a chosen parent is one of the roots. -/
lemma best_parent_impl_mem {θ : α} {simM : ℕ → ℕ → α}
    {topics roots : List (Topic α)} {t r₀ : Topic α}
    (h : best_parent_impl θ simM topics roots t = some r₀) : r₀ ∈ roots := by
  unfold best_parent_impl find_best_parent at h
  suffices haux : ∀ (l : List (Topic α)) (st : α × Option (Topic α)),
      ((l.foldl (fun st r =>
        let s := simM (topic_index topics t.id) (topic_index topics r.id)
        if st.1 < s ∧ θ ≤ s then (s, some r) else st) st).2 = some r₀) →
      st.2 = some r₀ ∨ r₀ ∈ l by
    rcases haux roots (-1, none) h with h' | h'
    · cases h'
    · exact h'
  intro l
  induction l with
  | nil => intro st h'; exact Or.inl h'
  | cons x xs ih =>
    intro st h'
    rw [List.foldl_cons] at h'
    rcases ih _ h' with h'' | h''
    · dsimp only at h''
      by_cases hcond : st.1 < simM (topic_index topics t.id)
          (topic_index topics x.id) ∧
          θ ≤ simM (topic_index topics t.id) (topic_index topics x.id)
      · rw [if_pos hcond] at h''
        exact Or.inr (List.mem_cons.mpr (Or.inl (Option.some.inj h'').symm))
      · rw [if_neg hcond] at h''
        exact Or.inl h''
    · exact Or.inr (List.mem_cons_of_mem x h'')

/-- C1 helper: `append_child` acts on the left part when the key occurs
there. -/
lemma append_child_append_left :
    ∀ (l1 l2 : List (String × List String)) (k c : String),
      (∃ e ∈ l1, e.1 = k) →
      append_child (l1 ++ l2) k c = append_child l1 k c ++ l2 := by
  intro l1
  induction l1 with
  | nil =>
    intro l2 k c h
    obtain ⟨e, he, _⟩ := h
    cases he
  | cons e rest ih =>
    intro l2 k c h
    obtain ⟨k', cs'⟩ := e
    show append_child ((k', cs') :: (rest ++ l2)) k c = _
    unfold append_child
    by_cases hk : k' = k
    · rw [if_pos hk, if_pos hk]
      rfl
    · rw [if_neg hk, if_neg hk]
      obtain ⟨e', he', hke'⟩ := h
      rcases List.mem_cons.mp he' with heq | hmem
      · rw [heq] at hke'
        exact absurd hke' hk
      · rw [ih l2 k c ⟨e', hmem, hke'⟩]
        rfl

omit [LinearOrderedField α] in
/-- C1 helper: `append_child` on a keyed root map updates exactly the entry
of the matching root. -/
lemma append_child_map_roots :
    ∀ (roots : List (Topic α)) (f : Topic α → List String) (r₀ : Topic α)
      (c : String), (roots.map Topic.id).Nodup → r₀ ∈ roots →
      append_child (roots.map (fun x => (x.id, f x))) r₀.id c =
        roots.map (fun x =>
          (x.id, if x.id = r₀.id then f x ++ [c] else f x)) := by
  intro roots
  induction roots with
  | nil =>
    intro f r₀ c _ hmem
    cases hmem
  | cons x rest ih =>
    intro f r₀ c hnd hmem
    rw [List.map_cons] at hnd
    obtain ⟨hx_not, hnd'⟩ := List.nodup_cons.mp hnd
    show append_child ((x.id, f x) :: rest.map (fun y => (y.id, f y)))
      r₀.id c = _
    unfold append_child
    by_cases hx : x.id = r₀.id
    · rw [if_pos hx]
      simp only [List.map_cons, if_pos hx]
      congr 1
      apply (List.map_congr_left ?_).symm
      intro y hy
      have hyne : y.id ≠ r₀.id := by
        rw [← hx]
        intro hcontra
        exact hx_not (hcontra ▸ List.mem_map_of_mem Topic.id hy)
      rw [if_neg hyne]
    · rw [if_neg hx]
      have hr₀rest : r₀ ∈ rest := by
        rcases List.mem_cons.mp hmem with heq | hmem'
        · exfalso
          apply hx
          rw [heq]
        · exact hmem'
      rw [ih f r₀ c hnd' hr₀rest]
      simp only [List.map_cons, if_neg hx]

/-- C1 key lemma: closed form of the assignment fold of `build_hierarchy` —
every processed topic either extends the child list of its chosen root or is
appended as a new childless root, and its level records which. -/
lemma hier_fold_char (θ : α) (simM : ℕ → ℕ → α)
    (topics roots : List (Topic α)) (hnd : (roots.map Topic.id).Nodup) :
    ∀ (pre : List (Topic α)),
      (∀ t ∈ pre, t.id ∉ roots.map Topic.id) →
      pre.foldl (hier_step θ simM topics roots)
        { hierarchy := roots.map (fun r => (r.id, []))
          levels := roots.map (fun r => (r.id, 0)) } =
      { hierarchy :=
          roots.map (fun r => (r.id,
            ((pre.filter (fun t =>
              best_parent_impl θ simM topics roots t = some r)).map
                (fun t => t.id))))
          ++ (pre.filter (fun t =>
              best_parent_impl θ simM topics roots t = none)).map
                (fun t => (t.id, ([] : List String)))
        levels :=
          roots.map (fun r => (r.id, 0))
          ++ pre.map (fun t => (t.id,
              if best_parent_impl θ simM topics roots t = none then 0
              else 1)) } := by
  intro pre
  induction pre using List.reverseRecOn with
  | nil => intro _; simp
  | append_singleton pre t ih =>
    intro hpre
    have hprev := ih (fun t' ht' => hpre t' (List.mem_append_left _ ht'))
    have htid : t.id ∉ roots.map Topic.id :=
      hpre t (List.mem_append_right _ (List.mem_singleton_self t))
    rw [List.foldl_append, hprev, List.foldl_cons, List.foldl_nil]
    show hier_step θ simM topics roots _ t = _
    unfold hier_step
    rw [show (find_best_parent θ
        (fun r => simM (topic_index topics t.id) (topic_index topics r.id))
        roots).2 = best_parent_impl θ simM topics roots t from rfl]
    cases hbp : best_parent_impl θ simM topics roots t with
    | some r₀ =>
      have hr₀ : r₀ ∈ roots := best_parent_impl_mem hbp
      dsimp only
      congr 1
      case e_hierarchy =>
        have hkey : ∃ e ∈ roots.map (fun r => (r.id,
            ((pre.filter (fun t' =>
              best_parent_impl θ simM topics roots t' = some r)).map
                (fun t' => t'.id)))), e.1 = r₀.id :=
          ⟨_, List.mem_map_of_mem _ hr₀, rfl⟩
        rw [append_child_append_left _ _ _ _ hkey]
        rw [append_child_map_roots roots _ r₀ t.id hnd hr₀]
        congr 1
        · apply List.map_congr_left
          intro x hx
          rw [List.filter_append]
          simp only [List.filter_cons, List.filter_nil]
          by_cases hid : x.id = r₀.id
          · have hxr : x = r₀ :=
              List.inj_on_of_nodup_map hnd hx hr₀ hid
            subst hxr
            rw [if_pos rfl]
            simp [hbp]
          · rw [if_neg hid]
            have hne : ¬(best_parent_impl θ simM topics roots t = some x) := by
              rw [hbp]
              intro hcontra
              apply hid
              rw [Option.some.inj hcontra]
            simp [hne]
        · rw [List.filter_append]
          simp only [List.filter_cons, List.filter_nil, hbp]
          simp
      case e_levels =>
        rw [List.map_append, List.append_assoc]
        congr 2
        simp [hbp]
    | none =>
      dsimp only
      congr 1
      case e_hierarchy =>
        rw [List.append_assoc]
        congr 1
        · apply List.map_congr_left
          intro x hx
          rw [List.filter_append]
          simp only [List.filter_cons, List.filter_nil]
          have hne : ¬(best_parent_impl θ simM topics roots t = some x) := by
            rw [hbp]
            exact fun hcontra => Option.noConfusion hcontra
          simp [hne]
        · rw [List.filter_append]
          simp only [List.filter_cons, List.filter_nil, hbp]
          simp
      case e_levels =>
        rw [List.map_append, List.append_assoc]
        congr 2
        simp [hbp]

/-- C1 helper: `build_hierarchy_aux` restated through the named step
function (definitional). -/
lemma build_hierarchy_aux_foldl (θ : α) (topics : List (Topic α))
    (simM : ℕ → ℕ → α) :
    build_hierarchy_aux θ topics simM =
      (if topics.length < 2 then { hierarchy := [], levels := [] }
       else
         let sorted_topics :=
           topics.insertionSort (fun a b => b.frequency ≤ a.frequency)
         let root_count := max 1 (sorted_topics.length / 5)
         let root_topics := sorted_topics.take root_count
         (sorted_topics.drop root_count).foldl
           (hier_step θ simM topics root_topics)
           { hierarchy := root_topics.map (fun r => (r.id, []))
             levels := root_topics.map (fun r => (r.id, 0)) }) := rfl

/-- C1 main lemma: for thresholds above the `-1` sentinel and distinct topic
ids, the imperative `build_hierarchy` body equals its declarative spec. -/
lemma build_hierarchy_aux_eq_spec (θ : α) (hθ : -1 < θ)
    (topics : List (Topic α)) (hids : (topics.map Topic.id).Nodup)
    (simM : ℕ → ℕ → α) :
    build_hierarchy_aux θ topics simM =
      build_hierarchy_spec_aux θ topics simM := by
  rw [build_hierarchy_aux_foldl]
  unfold build_hierarchy_spec_aux
  by_cases hlen : topics.length < 2
  · rw [if_pos hlen, if_pos hlen]
  · rw [if_neg hlen, if_neg hlen]
    dsimp only
    have hperm : List.Perm
        (topics.insertionSort (fun a b => b.frequency ≤ a.frequency)) topics :=
      List.perm_insertionSort _ topics
    have hsortnd : ((topics.insertionSort
        (fun a b => b.frequency ≤ a.frequency)).map Topic.id).Nodup :=
      ((hperm.map Topic.id).nodup_iff).mpr hids
    have hsplit :
        (topics.insertionSort (fun a b => b.frequency ≤ a.frequency)).take
            (max 1 ((topics.insertionSort
              (fun a b => b.frequency ≤ a.frequency)).length / 5))
          ++ (topics.insertionSort (fun a b => b.frequency ≤ a.frequency)).drop
            (max 1 ((topics.insertionSort
              (fun a b => b.frequency ≤ a.frequency)).length / 5)) =
          topics.insertionSort (fun a b => b.frequency ≤ a.frequency) :=
      List.take_append_drop _ _
    have hndall : (((topics.insertionSort
          (fun a b => b.frequency ≤ a.frequency)).take
            (max 1 ((topics.insertionSort
              (fun a b => b.frequency ≤ a.frequency)).length / 5))
        ++ (topics.insertionSort (fun a b => b.frequency ≤ a.frequency)).drop
            (max 1 ((topics.insertionSort
              (fun a b => b.frequency ≤ a.frequency)).length / 5))).map
          Topic.id).Nodup := by
      rw [hsplit]
      exact hsortnd
    rw [List.map_append] at hndall
    obtain ⟨hndroots, hndrest, hdisj⟩ := List.nodup_append.mp hndall
    have hrestroots : ∀ t ∈ (topics.insertionSort
        (fun a b => b.frequency ≤ a.frequency)).drop
          (max 1 ((topics.insertionSort
            (fun a b => b.frequency ≤ a.frequency)).length / 5)),
        t.id ∉ ((topics.insertionSort
          (fun a b => b.frequency ≤ a.frequency)).take
            (max 1 ((topics.insertionSort
              (fun a b => b.frequency ≤ a.frequency)).length / 5))).map
          Topic.id :=
      fun t ht hmem => hdisj hmem (List.mem_map_of_mem _ ht)
    rw [hier_fold_char θ simM topics _ hndroots _ hrestroots]
    simp only [best_parent_impl_eq_spec θ hθ simM topics]

/-- Counting helper: summing an indicator over a list counts the element. -/
lemma sum_map_ite_eq_count {β : Type} [DecidableEq β] (l : List β) (a : β) :
    (l.map (fun x => if x = a then (1 : ℕ) else 0)).sum = l.count a := by
  induction l with
  | nil => rfl
  | cons x xs ih =>
    rw [List.map_cons, List.sum_cons, List.count_cons, ih]
    by_cases hx : x = a
    · simp [hx, Nat.add_comm]
    · simp [hx]

/-- Counting helper: occurrences in a flattened list, group by group. -/
lemma count_flatMap {β γ : Type} [BEq γ] (l : List β) (f : β → List γ)
    (a : γ) :
    (l.flatMap f).count a = (l.map (fun x => (f x).count a)).sum := by
  induction l with
  | nil => rfl
  | cons x xs ih =>
    rw [List.flatMap_cons, List.count_append, List.map_cons, List.sum_cons, ih]

omit [LinearOrderedField α] in
/-- C10 helper: in a list of topics with distinct ids, the id of a member
occurs in a filtered projection exactly when the member satisfies the
filter. -/
lemma count_map_filter_of_nodup {l : List (Topic α)}
    (hnd : (l.map Topic.id).Nodup) {t : Topic α} (ht : t ∈ l)
    (q : Topic α → Bool) :
    ((l.filter q).map Topic.id).count t.id = if q t then 1 else 0 := by
  induction l with
  | nil => cases ht
  | cons x xs ih =>
    rw [List.map_cons] at hnd
    obtain ⟨hx_not, hnd'⟩ := List.nodup_cons.mp hnd
    rcases List.mem_cons.mp ht with heq | hmem
    · subst heq
      have hzero : ((xs.filter q).map Topic.id).count t.id = 0 := by
        rw [List.count_eq_zero]
        intro hmem'
        obtain ⟨y, hy, hyid⟩ := List.mem_map.mp hmem'
        apply hx_not
        rw [← hyid]
        exact List.mem_map_of_mem Topic.id (List.mem_of_mem_filter hy)
      rw [List.filter_cons]
      cases hq : q t with
      | false =>
        simp only [Bool.false_eq_true, if_false]
        rw [hzero]
      | true =>
        simp only [if_true]
        rw [List.map_cons, List.count_cons_self, hzero]
    · have htid : t.id ≠ x.id := by
        intro hcontra
        apply hx_not
        rw [← hcontra]
        exact List.mem_map_of_mem Topic.id hmem
      rw [List.filter_cons]
      cases hq : q x with
      | false =>
        simp only [Bool.false_eq_true, if_false]
        exact ih hnd' hmem
      | true =>
        simp only [if_true]
        rw [List.map_cons, List.count_cons_of_ne htid]
        exact ih hnd' hmem

omit [LinearOrderedField α] in
/-- C10 helper: an id foreign to a topic list never occurs in a filtered
projection of it. -/
lemma count_map_filter_of_not_mem {l : List (Topic α)} {a : String}
    (h : a ∉ l.map Topic.id) (q : Topic α → Bool) :
    ((l.filter q).map Topic.id).count a = 0 := by
  rw [List.count_eq_zero]
  intro hmem
  obtain ⟨y, hy, hyid⟩ := List.mem_map.mp hmem
  apply h
  rw [← hyid]
  exact List.mem_map_of_mem Topic.id (List.mem_of_mem_filter hy)

/-- C10 helper: a topic whose chosen parent is `r₀` is counted exactly once
across the per-root child lists. -/
lemma sum_count_some (bp : Topic α → Option (Topic α))
    (roots rest : List (Topic α)) (hndroots : (roots.map Topic.id).Nodup)
    (hndrest : (rest.map Topic.id).Nodup) {t r₀ : Topic α} (ht : t ∈ rest)
    (hr₀ : r₀ ∈ roots) (hbpc : bp t = some r₀) :
    (roots.map (fun r =>
      ((rest.filter (fun x => bp x = some r)).map Topic.id).count t.id)).sum
      = 1 := by
  have hpt : ∀ r ∈ roots,
      ((rest.filter (fun x => bp x = some r)).map Topic.id).count t.id =
        if r = r₀ then 1 else 0 := by
    intro r _
    rw [count_map_filter_of_nodup hndrest ht (fun x => bp x = some r)]
    by_cases hr : r = r₀
    · rw [if_pos hr, if_pos]
      rw [hr]
      exact decide_eq_true hbpc
    · rw [if_neg hr, if_neg]
      simp only [decide_eq_true_eq, hbpc]
      intro hcontra
      exact hr (Option.some.inj hcontra).symm
  rw [List.map_congr_left hpt, sum_map_ite_eq_count]
  exact List.count_eq_one_of_mem (List.Nodup.of_map Topic.id hndroots) hr₀

/-- C10 helper: keys of the closed-form levels dict are the root ids
followed by the remaining ids. -/
lemma cf_levels_keys (bp : Topic α → Option (Topic α))
    (roots rest : List (Topic α)) :
    (cf_levels bp roots rest).map Prod.fst =
      roots.map Topic.id ++ rest.map Topic.id := by
  unfold cf_levels
  rw [List.map_append, List.map_map, List.map_map]
  rfl

/-- C10 helper: every level value of the closed form is 0 or 1. -/
lemma cf_levels_vals (bp : Topic α → Option (Topic α))
    (roots rest : List (Topic α)) :
    ∀ p ∈ cf_levels bp roots rest, p.2 = 0 ∨ p.2 = 1 := by
  intro p hp
  unfold cf_levels at hp
  rcases List.mem_append.mp hp with h | h
  · obtain ⟨r, _, heq⟩ := List.mem_map.mp h
    rw [← heq]
    exact Or.inl rfl
  · obtain ⟨t, _, heq⟩ := List.mem_map.mp h
    rw [← heq]
    by_cases hbp : bp t = none
    · exact Or.inl (by simp [hbp])
    · exact Or.inr (by simp [hbp])

/-- C10 helper: keys of the closed-form hierarchy dict are the root ids
followed by the promoted ids. -/
lemma cf_hierarchy_keys (bp : Topic α → Option (Topic α))
    (roots rest : List (Topic α)) :
    (cf_hierarchy bp roots rest).map Prod.fst =
      roots.map Topic.id
        ++ (rest.filter (fun t => bp t = none)).map Topic.id := by
  unfold cf_hierarchy
  rw [List.map_append, List.map_map, List.map_map]
  rfl

/-- C10 helper: in the closed form, level 0 characterises the hierarchy
keys. -/
lemma cf_level_zero_iff (bp : Topic α → Option (Topic α))
    (roots rest : List (Topic α))
    (hnd : (roots.map Topic.id ++ rest.map Topic.id).Nodup) :
    ∀ p ∈ cf_levels bp roots rest,
      (p.2 = 0 ↔ p.1 ∈ (cf_hierarchy bp roots rest).map Prod.fst) := by
  obtain ⟨hndroots, hndrest, hdisj⟩ := List.nodup_append.mp hnd
  intro p hp
  rw [cf_hierarchy_keys]
  unfold cf_levels at hp
  rcases List.mem_append.mp hp with h | h
  · obtain ⟨r, hr, heq⟩ := List.mem_map.mp h
    rw [← heq]
    constructor
    · intro _
      exact List.mem_append_left _ (List.mem_map_of_mem Topic.id hr)
    · intro _
      rfl
  · obtain ⟨t, ht, heq⟩ := List.mem_map.mp h
    rw [← heq]
    by_cases hbp : bp t = none
    · rw [if_pos hbp]
      constructor
      · intro _
        refine List.mem_append_right _ ?_
        refine List.mem_map_of_mem Topic.id ?_
        rw [List.mem_filter]
        exact ⟨ht, decide_eq_true hbp⟩
      · intro _
        rfl
    · rw [if_neg hbp]
      constructor
      · intro hcontra
        exact absurd hcontra one_ne_zero
      · intro hmem
        exfalso
        rcases List.mem_append.mp hmem with hL | hR
        · exact hdisj hL (List.mem_map_of_mem Topic.id ht)
        · obtain ⟨y, hy, hyid⟩ := List.mem_map.mp hR
          rw [List.mem_filter] at hy
          have hyt : y = t := List.inj_on_of_nodup_map hndrest hy.1 ht hyid
          apply hbp
          rw [← hyt]
          exact of_decide_eq_true hy.2

/-- C10 helper: a level-1 topic of the closed form is counted exactly once
across all child lists. -/
lemma cf_child_once (bp : Topic α → Option (Topic α))
    (roots rest : List (Topic α))
    (hnd : (roots.map Topic.id ++ rest.map Topic.id).Nodup)
    (hmem : ∀ t r₀, bp t = some r₀ → r₀ ∈ roots) :
    ∀ p ∈ cf_levels bp roots rest, p.2 = 1 →
      ((cf_hierarchy bp roots rest).map (fun e => e.2.count p.1)).sum = 1 := by
  obtain ⟨hndroots, hndrest, _⟩ := List.nodup_append.mp hnd
  intro p hp hp1
  unfold cf_levels at hp
  rcases List.mem_append.mp hp with h | h
  · obtain ⟨r, _, heq⟩ := List.mem_map.mp h
    rw [← heq] at hp1
    exact absurd hp1 zero_ne_one
  · obtain ⟨t, ht, heq⟩ := List.mem_map.mp h
    rw [← heq] at hp1 ⊢
    cases hbpc : bp t with
    | none =>
      exfalso
      have hp1' : (if bp t = none then 0 else 1) = 1 := hp1
      rw [if_pos hbpc] at hp1'
      exact zero_ne_one hp1'
    | some r₀ =>
      have hr₀ : r₀ ∈ roots := hmem t r₀ hbpc
      unfold cf_hierarchy
      rw [List.map_append, List.sum_append, List.map_map, List.map_map]
      have h2 : (((rest.filter (fun x => bp x = none)).map
          ((fun e : String × List String =>
            e.2.count (t.id, if bp t = none then 0 else 1).1) ∘
            (fun x => (x.id, ([] : List String))))).sum : ℕ) = 0 := by
        apply List.sum_eq_zero
        intro x hx
        obtain ⟨y, _, hy⟩ := List.mem_map.mp hx
        rw [← hy]
        rfl
      rw [h2, Nat.add_zero]
      have hpt1 : ∀ r ∈ roots,
          ((fun e : String × List String =>
            e.2.count (t.id, if bp t = none then 0 else 1).1) ∘
            (fun r : Topic α => (r.id,
              ((rest.filter (fun x => bp x = some r)).map
                (fun x => x.id))))) r =
          ((rest.filter (fun x => bp x = some r)).map Topic.id).count t.id :=
        fun r _ => rfl
      rw [List.map_congr_left hpt1]
      exact sum_count_some bp roots rest hndroots hndrest ht hr₀ hbpc

/-- C10 helper: in the closed form every input id occurs exactly once across
the hierarchy keys and child lists together. -/
lemma cf_count_one (bp : Topic α → Option (Topic α))
    (roots rest : List (Topic α))
    (hnd : (roots.map Topic.id ++ rest.map Topic.id).Nodup)
    (hmem : ∀ t r₀, bp t = some r₀ → r₀ ∈ roots) :
    ∀ i ∈ roots.map Topic.id ++ rest.map Topic.id,
      (((cf_hierarchy bp roots rest).map Prod.fst)
        ++ (cf_hierarchy bp roots rest).flatMap (fun e => e.2)).count i
        = 1 := by
  obtain ⟨hndroots, hndrest, hdisj⟩ := List.nodup_append.mp hnd
  intro i hi
  have hflat : (cf_hierarchy bp roots rest).flatMap (fun e => e.2) =
      roots.flatMap (fun r =>
        (rest.filter (fun t => bp t = some r)).map Topic.id) := by
    unfold cf_hierarchy
    rw [List.flatMap_append, List.flatMap_map, List.flatMap_map]
    have hnilpart : (rest.filter (fun t => bp t = none)).flatMap
        (fun a : Topic α =>
          ((fun t : Topic α => (t.id, ([] : List String))) a).2) = [] := by
      apply List.flatMap_eq_nil_iff.mpr
      intro x _
      rfl
    rw [hnilpart, List.append_nil]
  rw [List.count_append, cf_hierarchy_keys, hflat, count_flatMap,
    List.count_append]
  rcases List.mem_append.mp hi with hiroot | hirest
  · have h1 : (roots.map Topic.id).count i = 1 :=
      List.count_eq_one_of_mem hndroots hiroot
    have hnotrest : i ∉ rest.map Topic.id := fun hc => hdisj hiroot hc
    have h2 : ((rest.filter (fun t => bp t = none)).map Topic.id).count i
        = 0 := count_map_filter_of_not_mem hnotrest _
    have h3 : (roots.map (fun r =>
        ((rest.filter (fun t => bp t = some r)).map Topic.id).count i)).sum
        = 0 := by
      apply List.sum_eq_zero
      intro x hx
      obtain ⟨r, _, hr⟩ := List.mem_map.mp hx
      rw [← hr]
      exact count_map_filter_of_not_mem hnotrest _
    rw [h1, h2, h3]
  · obtain ⟨t, ht, htid⟩ := List.mem_map.mp hirest
    rw [← htid]
    have hinrest : t.id ∈ rest.map Topic.id := List.mem_map_of_mem Topic.id ht
    have h1 : (roots.map Topic.id).count t.id = 0 :=
      List.count_eq_zero.mpr (fun hc => hdisj hc hinrest)
    cases hbpc : bp t with
    | none =>
      have h2 : ((rest.filter (fun x => bp x = none)).map Topic.id).count t.id
          = 1 := by
        rw [count_map_filter_of_nodup hndrest ht (fun x => bp x = none)]
        simp [hbpc]
      have h3 : (roots.map (fun r =>
          ((rest.filter (fun x => bp x = some r)).map Topic.id).count
            t.id)).sum = 0 := by
        apply List.sum_eq_zero
        intro x hx
        obtain ⟨r, _, hr⟩ := List.mem_map.mp hx
        rw [← hr]
        rw [count_map_filter_of_nodup hndrest ht (fun x => bp x = some r)]
        simp [hbpc]
      rw [h1, h2, h3]
    | some r₀ =>
      have h2 : ((rest.filter (fun x => bp x = none)).map Topic.id).count t.id
          = 0 := by
        rw [count_map_filter_of_nodup hndrest ht (fun x => bp x = none)]
        simp [hbpc]
      have h3 := sum_count_some bp roots rest hndroots hndrest ht
        (hmem t r₀ hbpc) hbpc
      rw [h1, h2, h3]

/-- C10 helper: under the length guard, `build_hierarchy_aux` produces the
closed-form dicts for some root/remainder split of the input. -/
lemma build_hierarchy_aux_cf (θ : α) (topics : List (Topic α))
    (simM : ℕ → ℕ → α) (hlen : 2 ≤ topics.length)
    (hids : (topics.map Topic.id).Nodup) :
    ∃ roots rest : List (Topic α),
      List.Perm (roots ++ rest) topics ∧
      (roots.map Topic.id ++ rest.map Topic.id).Nodup ∧
      build_hierarchy_aux θ topics simM =
        { hierarchy :=
            cf_hierarchy (best_parent_impl θ simM topics roots) roots rest
          levels :=
            cf_levels (best_parent_impl θ simM topics roots) roots rest } := by
  set S := topics.insertionSort (fun a b => b.frequency ≤ a.frequency) with hS
  have hperm : List.Perm S topics := List.perm_insertionSort _ topics
  have hndS : (S.map Topic.id).Nodup := ((hperm.map Topic.id).nodup_iff).mpr hids
  set rc := max 1 (S.length / 5) with hrc
  have hsplit : S.take rc ++ S.drop rc = S := List.take_append_drop rc S
  have hndall : ((S.take rc).map Topic.id ++ (S.drop rc).map Topic.id).Nodup := by
    rw [← List.map_append, hsplit]
    exact hndS
  obtain ⟨hndroots, _, hdisj⟩ := List.nodup_append.mp hndall
  refine ⟨S.take rc, S.drop rc, ?_, hndall, ?_⟩
  · rw [hsplit]
    exact hperm
  · rw [build_hierarchy_aux_foldl, if_neg (not_lt.mpr hlen)]
    dsimp only
    rw [← hS, ← hrc]
    rw [hier_fold_char θ simM topics (S.take rc) hndroots (S.drop rc)
      (fun t ht hmemt => hdisj hmemt (List.mem_map_of_mem _ ht))]
    rfl

/-- C10 (implicit): for at least 2 topics with pairwise-distinct ids and
embeddings present, `build_hierarchy` exactly partitions the input: the
levels dict covers precisely the input ids; every level is 0 or 1; level 0
holds exactly of the hierarchy keys; each level-1 id sits in exactly one
child list; and every input id occurs exactly once across keys and child
lists together. -/
theorem build_hierarchy_partition (θ : ℝ) (topics : List (Topic ℝ))
    (hlen : 2 ≤ topics.length) (hids : (topics.map Topic.id).Nodup)
    (_hemb : ∀ t ∈ topics, t.embedding.isSome = true) :
    List.Perm ((build_hierarchy θ topics).levels.map Prod.fst)
        (topics.map Topic.id)
    ∧ (∀ p ∈ (build_hierarchy θ topics).levels, p.2 = 0 ∨ p.2 = 1)
    ∧ (∀ p ∈ (build_hierarchy θ topics).levels,
        (p.2 = 0 ↔ p.1 ∈ (build_hierarchy θ topics).hierarchy.map Prod.fst))
    ∧ (∀ p ∈ (build_hierarchy θ topics).levels, p.2 = 1 →
        ((build_hierarchy θ topics).hierarchy.map
          (fun e => e.2.count p.1)).sum = 1)
    ∧ (∀ i ∈ topics.map Topic.id,
        (((build_hierarchy θ topics).hierarchy.map Prod.fst)
          ++ (build_hierarchy θ topics).hierarchy.flatMap (fun e => e.2)).count
            i = 1) := by
  obtain ⟨roots, rest, hperm, hnd, heq⟩ :=
    build_hierarchy_aux_cf θ topics (compute_similarity_matrix topics)
      hlen hids
  have hbmem : ∀ (t r₀ : Topic ℝ),
      best_parent_impl θ (compute_similarity_matrix topics) topics roots t =
        some r₀ → r₀ ∈ roots :=
    fun t r₀ h => best_parent_impl_mem h
  unfold build_hierarchy
  rw [heq]
  dsimp only
  refine ⟨?_, cf_levels_vals _ roots rest, cf_level_zero_iff _ roots rest hnd,
    cf_child_once _ roots rest hnd hbmem, ?_⟩
  · rw [cf_levels_keys, ← List.map_append]
    exact hperm.map Topic.id
  · intro i hi
    apply cf_count_one _ roots rest hnd hbmem
    have hi' : i ∈ (roots ++ rest).map Topic.id :=
      ((hperm.map Topic.id).mem_iff).mpr hi
    rw [List.map_append] at hi'
    exact hi'

/-- Witness for C10: the hypotheses hold at the three worked-example topics
and the partition follows by the theorem. -/
theorem build_hierarchy_partition_witness :
    2 ≤ c1_topics.length ∧ (c1_topics.map Topic.id).Nodup
    ∧ (∀ t ∈ c1_topics, t.embedding.isSome = true)
    ∧ (List.Perm ((build_hierarchy 0 c1_topics).levels.map Prod.fst)
          (c1_topics.map Topic.id)
      ∧ (∀ p ∈ (build_hierarchy 0 c1_topics).levels, p.2 = 0 ∨ p.2 = 1)
      ∧ (∀ p ∈ (build_hierarchy 0 c1_topics).levels,
          (p.2 = 0 ↔
            p.1 ∈ (build_hierarchy 0 c1_topics).hierarchy.map Prod.fst))
      ∧ (∀ p ∈ (build_hierarchy 0 c1_topics).levels, p.2 = 1 →
          ((build_hierarchy 0 c1_topics).hierarchy.map
            (fun e => e.2.count p.1)).sum = 1)
      ∧ (∀ i ∈ c1_topics.map Topic.id,
          (((build_hierarchy 0 c1_topics).hierarchy.map Prod.fst)
            ++ (build_hierarchy 0 c1_topics).hierarchy.flatMap
              (fun e => e.2)).count i = 1)) :=
  ⟨by decide, by decide, by decide,
    build_hierarchy_partition 0 c1_topics (by decide) (by decide) (by decide)⟩

/-- C1 (amended): for at least 2 topics with pairwise-distinct ids,
embeddings present and a similarity threshold above the loop's `-1`
sentinel, `build_hierarchy` implements the spec's description — top
`max(1, count / 5)` topics by frequency become level-0 roots, every
remaining topic is attached at level 1 to its maximum-similarity root when
that maximum reaches the threshold (first root wins ties) and is promoted
to a childless root otherwise; on the worked example T1=[1,0] (freq 10),
T2=[0.98,0.02] (freq 8), T3=[0,1] (freq 5) with threshold 0.8 the result is
exactly `{t1: [t2], t3: []}` with levels t1=0, t2=1, t3=0. -/
theorem build_hierarchy_matches_spec :
    (∀ (θ : ℝ) (topics : List (Topic ℝ)),
        2 ≤ topics.length → -1 < θ → (topics.map Topic.id).Nodup →
        (∀ t ∈ topics, t.embedding.isSome = true) →
        build_hierarchy θ topics = build_hierarchy_spec θ topics)
    ∧ (build_hierarchy (4/5) c1_topics).hierarchy =
        [("t1", ["t2"]), ("t3", [])]
    ∧ (build_hierarchy (4/5) c1_topics).levels =
        [("t1", 0), ("t2", 1), ("t3", 0)] := by
  have hdot21 : dot ([(49/50 : ℝ), 1/50]) ([(1 : ℝ), 0]) = 49/50 := by
    simp only [dot, List.zip_cons_cons, List.zip_nil_right, List.map_cons,
      List.map_nil, List.sum_cons, List.sum_nil]
    norm_num
  have hdot22 : dot ([(49/50 : ℝ), 1/50]) ([(49/50 : ℝ), 1/50]) =
      2402/2500 := by
    simp only [dot, List.zip_cons_cons, List.zip_nil_right, List.map_cons,
      List.map_nil, List.sum_cons, List.sum_nil]
    norm_num
  have hdot11 : dot ([(1 : ℝ), 0]) ([(1 : ℝ), 0]) = 1 := by
    simp only [dot, List.zip_cons_cons, List.zip_nil_right, List.map_cons,
      List.map_nil, List.sum_cons, List.sum_nil]
    norm_num
  have hdot31 : dot ([(0 : ℝ), 1]) ([(1 : ℝ), 0]) = 0 := by
    simp only [dot, List.zip_cons_cons, List.zip_nil_right, List.map_cons,
      List.map_nil, List.sum_cons, List.sum_nil]
    norm_num
  have hs21 : compute_similarity_matrix c1_topics 1 0 =
      49/50 / Real.sqrt (2402/2500) := by
    show cosine_sim [(49/50 : ℝ), 1/50] [(1 : ℝ), 0] = _
    unfold cosine_sim
    rw [hdot21, hdot22, hdot11, Real.sqrt_one, mul_one]
  have hs31 : compute_similarity_matrix c1_topics 2 0 = 0 := by
    show cosine_sim [(0 : ℝ), 1] [(1 : ℝ), 0] = 0
    unfold cosine_sim
    rw [hdot31]
    exact zero_div _
  have hsq_pos : (0 : ℝ) < Real.sqrt (2402/2500) :=
    Real.sqrt_pos.mpr (by norm_num)
  have hsq_le : Real.sqrt ((2402 : ℝ)/2500) ≤ 1 := by
    have h := Real.sqrt_le_sqrt (show (2402/2500 : ℝ) ≤ 1 by norm_num)
    rwa [Real.sqrt_one] at h
  have hge : (4/5 : ℝ) ≤ 49/50 / Real.sqrt (2402/2500) := by
    rw [le_div_iff₀ hsq_pos]
    nlinarith [hsq_le, hsq_pos]
  have hgt : (-1 : ℝ) < 49/50 / Real.sqrt (2402/2500) := by
    have hpos : (0 : ℝ) < 49/50 / Real.sqrt (2402/2500) :=
      div_pos (by norm_num) hsq_pos
    linarith
  have hi1 : topic_index c1_topics "t1" = 0 := rfl
  have hi2 : topic_index c1_topics "t2" = 1 := rfl
  have hi3 : topic_index c1_topics "t3" = 2 := rfl
  have hfb2 : find_best_parent (4/5 : ℝ)
      (fun r => compute_similarity_matrix c1_topics
        (topic_index c1_topics c1_t2.id) (topic_index c1_topics r.id))
      [c1_t1] = (49/50 / Real.sqrt (2402/2500), some c1_t1) := by
    unfold find_best_parent
    rw [List.foldl_cons, List.foldl_nil]
    dsimp only
    rw [show c1_t2.id = "t2" from rfl, show c1_t1.id = "t1" from rfl,
      hi2, hi1, hs21]
    rw [if_pos ⟨by linarith, hge⟩]
  have hfb3 : find_best_parent (4/5 : ℝ)
      (fun r => compute_similarity_matrix c1_topics
        (topic_index c1_topics c1_t3.id) (topic_index c1_topics r.id))
      [c1_t1] = (-1, none) := by
    unfold find_best_parent
    rw [List.foldl_cons, List.foldl_nil]
    dsimp only
    rw [show c1_t3.id = "t3" from rfl, show c1_t1.id = "t1" from rfl,
      hi3, hi1, hs31]
    rw [if_neg (fun hand => absurd hand.2 (by norm_num))]
  have hsorted : c1_topics.insertionSort
      (fun a b => b.frequency ≤ a.frequency) = c1_topics := rfl
  have hstep2 : hier_step (4/5 : ℝ) (compute_similarity_matrix c1_topics)
      c1_topics [c1_t1]
      { hierarchy := [("t1", [])], levels := [("t1", 0)] } c1_t2 =
      { hierarchy := [("t1", ["t2"])], levels := [("t1", 0), ("t2", 1)] } := by
    unfold hier_step
    rw [hfb2]
    rfl
  have hstep3 : hier_step (4/5 : ℝ) (compute_similarity_matrix c1_topics)
      c1_topics [c1_t1]
      { hierarchy := [("t1", ["t2"])], levels := [("t1", 0), ("t2", 1)] }
      c1_t3 =
      { hierarchy := [("t1", ["t2"]), ("t3", [])]
        levels := [("t1", 0), ("t2", 1), ("t3", 0)] } := by
    unfold hier_step
    rw [hfb3]
    rfl
  have hrun : build_hierarchy (4/5 : ℝ) c1_topics =
      { hierarchy := [("t1", ["t2"]), ("t3", [])]
        levels := [("t1", 0), ("t2", 1), ("t3", 0)] } := by
    unfold build_hierarchy
    rw [build_hierarchy_aux_foldl, if_neg (by decide)]
    dsimp only
    rw [hsorted]
    rw [show max 1 (c1_topics.length / 5) = 1 from rfl]
    rw [show c1_topics.take 1 = [c1_t1] from rfl,
      show c1_topics.drop 1 = [c1_t2, c1_t3] from rfl]
    rw [show ([c1_t1].map (fun r => (r.id, ([] : List String)))) =
        [("t1", ([] : List String))] from rfl]
    rw [show ([c1_t1].map (fun r => (r.id, (0 : ℕ)))) =
        [("t1", (0 : ℕ))] from rfl]
    rw [List.foldl_cons, List.foldl_cons, List.foldl_nil]
    rw [hstep2, hstep3]
  refine ⟨?_, ?_, ?_⟩
  · intro θ topics hlen hθ hids _
    unfold build_hierarchy build_hierarchy_spec
    exact build_hierarchy_aux_eq_spec θ hθ topics hids _
  · rw [hrun]
  · rw [hrun]

/-- Counterexample for C1 as stated: on a single topic with an embedding the
code returns an empty hierarchy, not the claimed singleton root map
`{s1: []}` (root_count would be max(1, 1 / 5) = 1). -/
theorem build_hierarchy_singleton_counterexample :
    (build_hierarchy (4/5) [solo_topic]).hierarchy = []
    ∧ ([] : List (String × List String)) ≠ [("s1", ([] : List String))] :=
  ⟨rfl, by decide⟩

/-- Witness for C1: the hypotheses of the general conjunct hold at the
worked example with threshold 0.8. -/
theorem build_hierarchy_matches_spec_witness :
    2 ≤ c1_topics.length ∧ (-1 : ℝ) < 4/5 ∧ (c1_topics.map Topic.id).Nodup
    ∧ (∀ t ∈ c1_topics, t.embedding.isSome = true)
    ∧ build_hierarchy (4/5) c1_topics = build_hierarchy_spec (4/5) c1_topics :=
  ⟨by decide, by norm_num, by decide, by decide,
    build_hierarchy_matches_spec.1 (4/5) c1_topics (by decide) (by norm_num)
      (by decide) (by decide)⟩

/-- C8 helper: the concrete successful clustering run. -/
lemma pair_topics_cluster_run :
    cluster_topics_fuel zero_simFn hc_const 2 20 1 pair_topics =
      some [{ cluster_id := 1
              topics := pair_topics
              centroid_topic := ⟨"a", "a", 1, some [1], none, 0⟩
              avg_similarity := 0
              size := 2 }] := by
  have hded : ([1, 1] : List ℕ).dedup = [1] := by decide
  have hlt : ¬((0 : ℚ) / 2 < 0 / 2) := by norm_num
  norm_num [cluster_topics_fuel, create_clusters_fuel, create_clusters_go,
    cluster_indices, upper_pairs, argmax_idx, argmax_aux, pair_topics,
    hc_const, zero_simFn, hded, hlt, List.filter, List.replicate, List.dedup,
    List.range_succ]

/-- C8 witness: the bounds theorem applied to the concrete run. -/
theorem cluster_topics_size_bounds_witness :
    cluster_topics_fuel zero_simFn hc_const 2 20 1 pair_topics =
      some [{ cluster_id := 1
              topics := pair_topics
              centroid_topic := ⟨"a", "a", 1, some [1], none, 0⟩
              avg_similarity := 0
              size := 2 }] ∧
    ∀ c ∈ [({ cluster_id := 1
              topics := pair_topics
              centroid_topic := ⟨"a", "a", 1, some [1], none, 0⟩
              avg_similarity := 0
              size := 2 } : TopicCluster ℚ)], 2 ≤ c.size ∧ c.size ≤ 20 :=
  ⟨pair_topics_cluster_run,
    cluster_topics_size_bounds zero_simFn hc_const 2 20 1 pair_topics _
      pair_topics_cluster_run⟩

end Clusterer

end Theorems

end KG
